import Mathlib

/-!
# prailude `util.c`: account address codec, balance rendering, hex helpers

A shallow embedding of `src/util/util.c` (the Lua binding of the Nano account
codec) together with the properties of its natural-language specification.

Conventions of the embedding.

* A Lua string is a list of bytes, `List Nat`, every element below 256
  (`IsBytes`).  The C view of a Lua string carries one terminating NUL right
  after its last byte; `cstr` reads it.
* `uint64_t`, `uint128_t` and `uint256_t` values are natural numbers; the
  operations that can overflow reduce modulo `2 ^ 64`, `2 ^ 128` and
  `2 ^ 256`.
* A Lua error raised by `luaL_argerror` or `luaL_error` and the
  `nil, message` pair returned through `RETURN_FAIL` are both
  `Except.error message`.
* `memcpy` between a byte buffer and a `uint64_t` follows the little-endian
  layout of the host the library is built for.
* Memory that the code can read outside its own objects is a parameter: `past`
  for the bytes behind the array `decode32`, `after` for the bytes behind the
  terminator of a Lua string.  What a buffer of `malloc` holds before it is
  written is the parameter `fresh`.  Whether plain `char` is signed is the
  parameter `char_signed`.
* `unsigned int` has 32 bits and `size_t` 64 bits.
-/

namespace Prailude

/-! ## Byte strings -/

/-- Every element of the list is a byte. -/
def IsBytes (bs : List Nat) : Prop := ∀ b ∈ bs, b < 256

instance (bs : List Nat) : Decidable (IsBytes bs) :=
  inferInstanceAs (Decidable (∀ b ∈ bs, b < 256))

instance {ε α : Type} [DecidableEq ε] [DecidableEq α] : DecidableEq (Except ε α) := fun a b =>
  match a, b with
  | .ok x, .ok y =>
    if h : x = y then isTrue (by rw [h]) else isFalse (fun e => h (Except.ok.inj e))
  | .error x, .error y =>
    if h : x = y then isTrue (by rw [h]) else isFalse (fun e => h (Except.error.inj e))
  | .ok _, .error _ => isFalse (fun e => Except.noConfusion e)
  | .error _, .ok _ => isFalse (fun e => Except.noConfusion e)

/-- `s[i]` on the C view of a Lua string: the bytes of the string, then the
terminating NUL that Lua keeps after them. -/
def cstr (s : List Nat) (i : Nat) : Nat := s.getD i 0

/-- The ASCII codes of a string literal of the source. -/
def ascii (s : String) : List Nat := s.toList.map Char.toNat

/-- Little-endian value of a byte buffer. -/
def le_value : List Nat → Nat
  | [] => 0
  | b :: bs => b + 256 * le_value bs

/-- The `n` low bytes of `v`, least significant first. -/
def le_bytes : Nat → Nat → List Nat
  | 0, _ => []
  | n + 1, v => v % 256 :: le_bytes n (v / 256)

/-- Big-endian value of a byte buffer. -/
def be_value (bs : List Nat) : Nat := le_value bs.reverse

/-- The `n` low bytes of `v`, most significant first. -/
def be_bytes (n v : Nat) : List Nat := (le_bytes n v).reverse

/-! ## `uint256.h` -/

/-- Modelled from the spec: `readu256BE` of `uint256.h`, which is not part of
the sources at hand.  "Interprets the buffer as a big-endian unsigned
integer"; it reads 32 bytes. -/
def readu256BE (buffer : List Nat) : Nat := be_value (buffer.take 32) % 2 ^ 256

/-- Modelled from the spec: `clear256` of `uint256.h` ("zeroing"). -/
def clear256 : Nat := 0

/-- Modelled from the spec: `shiftr256` of `uint256.h`, a logical right
shift; "bits shifted out are discarded". -/
def shiftr256 (number value : Nat) : Nat := number >>> value

/-- Modelled from the spec: `shiftl256` of `uint256.h`, a logical left shift
of a 256-bit value; "bits shifted out are discarded (no overflow signal)". -/
def shiftl256 (number value : Nat) : Nat := (number <<< value) % 2 ^ 256

/-- Modelled from the spec: the macro `LOWER(LOWER(x))` of `uint256.h`, the
least significant 64-bit limb of a 256-bit value. -/
def LOWER_LOWER (x : Nat) : Nat := x % 2 ^ 64

/-- The assignment `LOWER(LOWER(x)) |= val`: the low limb is replaced by its
bitwise or with `val`, the three upper limbs are kept. -/
def LOWER_LOWER_or (x val : Nat) : Nat :=
  x / 2 ^ 64 * 2 ^ 64 + (LOWER_LOWER x ||| val % 2 ^ 64)

/-- Modelled from the spec: `torawstring256` of `uint256.h`, "writes the value
back out as a big-endian byte buffer; always exactly W/8 bytes". -/
def torawstring256 (number : Nat) : List Nat := be_bytes 32 number

/-! ## `nanoutil_unpack_account_with_checksum` (encode) -/

/-- The table `b32` of the encoder. -/
def b32 : List Nat := ascii "13456789abcdefghijkmnopqrstuwxyz"

/-- `b32[i]`. -/
def b32_at (i : Nat) : Nat := b32.getD i 0

/-- The first loop of the encoder, `for(i=0; i<8; i++)`, with `n` iterations
left: `*cur-- = b32[checksum & 0x1F]; checksum >>= 5;`.  Returns the buffer,
`cur` and `checksum`. -/
def unpack_checksum_loop : Nat → List Nat → Nat → Nat → List Nat × Nat × Nat
  | 0, out, cur, checksum => (out, cur, checksum)
  | n + 1, out, cur, checksum =>
    unpack_checksum_loop n (out.set cur (b32_at (checksum &&& 0x1F))) (cur - 1)
      (checksum >>> 5)

/-- The second loop of the encoder, `for(i=0; i<52; i++)`, with `n`
iterations left: `*cur-- = b32[LOWER(LOWER(acct)) & 0x1F];
shiftr256(&acct, 5, &acct);`.  Returns the buffer, `cur` and `acct`. -/
def unpack_acct_loop : Nat → List Nat → Nat → Nat → List Nat × Nat × Nat
  | 0, out, cur, acct => (out, cur, acct)
  | n + 1, out, cur, acct =>
    unpack_acct_loop n (out.set cur (b32_at (LOWER_LOWER acct &&& 0x1F))) (cur - 1)
      (shiftr256 acct 5)

/-- `memcpy(out, src, n)` into the start of a buffer. -/
def memcpy_front (out src : List Nat) : List Nat := src ++ out.drop src.length

/-- `lua_pushstring`: the bytes of a C string up to its first NUL. -/
def lua_pushstring (out : List Nat) : List Nat := out.takeWhile (fun ch => ch != 0)

/-- The function `nanoutil_unpack_account_with_checksum`: arguments `raw_acct`
and `5_byte_hash`, result the address string.  The buffer `out[65]` starts
zeroed here; every one of its cells is written before it is read. -/
def nanoutil_unpack_account_with_checksum (acct_str checksum_str : List Nat) :
    Except String (List Nat) :=
  if acct_str.length ≠ 32 then
    .error "account length must be 32"
  else if checksum_str.length ≠ 5 then
    .error "checksum length must be 5"
  else
    -- memcpy(&checksum, checksum_str, 5) over `checksum = 0`
    let checksum := le_value (checksum_str.take 5) % 2 ^ 64
    let acct := readu256BE acct_str
    let out := memcpy_front (List.replicate 65 0) (ascii "xrb_")
    -- *cur-- = '\0' with cur = &out[64]
    let out := out.set 64 0
    let cur := 63
    let (out, cur, _) := unpack_checksum_loop 8 out cur checksum
    let (out, _, _) := unpack_acct_loop 52 out cur acct
    .ok (lua_pushstring out)

/-! ## `nanoutil_pack_account_with_checksum` (decode) -/

/-- The array `decode32` of the decoder: 75 entries and the NUL that ends the
string literal, 76 bytes in all. -/
def decode32 : List Nat :=
  [0x00, 0xFF, 0x01, 0x02, 0x03, 0x04, 0x05, 0x06,
   0x07, 0xFF, 0xFF, 0xFF, 0xFF, 0xFF, 0xFF, 0xFF,
   0xFF, 0xFF, 0xFF, 0xFF, 0xFF, 0xFF, 0xFF, 0xFF,
   0xFF, 0xFF, 0xFF, 0xFF, 0xFF, 0xFF, 0xFF, 0xFF,
   0xFF, 0xFF, 0xFF, 0xFF, 0xFF, 0xFF, 0xFF, 0xFF,
   0xFF, 0xFF, 0xFF, 0xFF, 0xFF, 0xFF, 0xFF, 0xFF,
   0x08, 0x09, 0x0A, 0x0B, 0x0C, 0x0D, 0x0E, 0x0F,
   0x10, 0x11, 0x12, 0xFF, 0x13, 0x14, 0x15, 0x16,
   0x17, 0x18, 0x19, 0x1A, 0x1B, 0xFF, 0x1C, 0x1D,
   0x1E, 0x1F, 0xFF,
   0x00]

/-- `decode32[idx]` converted to `uint8_t`.  The array has 76 bytes; a read
at a larger index leaves it, and what it finds there is the parameter `past`
(the bytes that follow the array in memory). -/
def decode32_at (past : Nat → Nat) (idx : Nat) : Nat :=
  if idx < 76 then decode32.getD idx 0 else past (idx - 76) % 256

/-- The loop `for(i=4; i<64; i++)` of the decoder with `n` iterations left,
at index `i`.  Returns `acct` and `checksum`, or the failure of
`RETURN_FAIL`. -/
def pack_loop (past : Nat → Nat) (acct_in : List Nat) :
    Nat → Nat → Nat → Nat → Except String (Nat × Nat)
  | 0, _, acct, checksum => .ok (acct, checksum)
  | n + 1, i, acct, checksum =>
    let chr := cstr acct_in i
    if chr < 0x31 ∨ chr ≥ 0x80 then
      .error "invalid_account"
    else
      let val := decode32_at past (chr - 0x31)
      if val = 0xFF then
        .error "invalid_account"
      else if i < 56 then
        pack_loop past acct_in n (i + 1) (LOWER_LOWER_or (shiftl256 acct 5) val) checksum
      else
        pack_loop past acct_in n (i + 1) acct ((checksum <<< 5) % 2 ^ 64 ||| val)

/-- The function `nanoutil_pack_account_with_checksum`: argument
`encoded_acct`, results the 32 key bytes and the 5 checksum bytes, or
`nil, "invalid_account"`. -/
def nanoutil_pack_account_with_checksum (past : Nat → Nat) (acct_in : List Nat) :
    Except String (List Nat × List Nat) :=
  if cstr acct_in 0 ≠ 0x78 ∨ cstr acct_in 1 ≠ 0x72 ∨ cstr acct_in 2 ≠ 0x62
      ∨ ¬(cstr acct_in 3 = 0x5F ∨ cstr acct_in 3 = 0x2D) then
    .error "invalid_account"
  else
    match pack_loop past acct_in 60 4 clear256 0 with
    | .error e => .error e
    | .ok (acct, checksum) =>
      -- lua_pushlstring(L, acct_out, 32); lua_pushlstring(L, &checksum, 5)
      .ok (torawstring256 acct, le_bytes 5 checksum)

/-! ## `nanoutil_unpack_balance_raw` and `nanoutil_pack_balance_raw` -/

/-- The byte `p[i]` for the C pointer `p` to the bytes of a Lua string: the
bytes of the string, its terminating NUL, and behind it whatever follows in
memory, the parameter `after`. -/
def c_read (after : Nat → Nat) (s : List Nat) (i : Nat) : Nat :=
  if i ≤ s.length then cstr s i else after (i - s.length - 1) % 256

/-- The `n` bytes found at the C pointer to a Lua string. -/
def c_bytes (after : Nat → Nat) (s : List Nat) (n : Nat) : List Nat :=
  (List.range n).map (c_read after s)

/-- Modelled from the spec: `readu128BE` of `uint256.h`, which is not part of
the sources at hand.  "Interprets the buffer as a big-endian unsigned
integer"; it reads 16 bytes. -/
def readu128BE (buffer : List Nat) : Nat := be_value (buffer.take 16) % 2 ^ 128

/-- Modelled from the spec: the digit loop of `tostring128` of `uint256.h`,
which is not part of the sources at hand.  It "repeatedly divides by 10",
"collecting remainders least-significant-digit-first", until the quotient is
zero; the divisor is the argument `base` of the call.  `room` counts the cells
of `out` still free for a digit; with none left the renderer "cannot produce
output". -/
def tostring128_loop (base : Nat) : Nat → Nat → List Nat → Option (List Nat)
  | 0, _, _ => none
  | room + 1, rDiv, collected =>
    if rDiv / base = 0 then
      some (collected ++ [0x30 + rDiv % base])
    else
      tostring128_loop base room (rDiv / base) (collected ++ [0x30 + rDiv % base])

/-- Modelled from the spec: `tostring128(number, base, out, outLength)` of
`uint256.h`.  The collected digits are reversed "into the final string" and
terminated by a NUL, for which one of the `outLength` cells is kept; the
result is the C string left in `out`, or `none` for the return value
`false`. -/
def tostring128 (number base outLength : Nat) : Option (List Nat) :=
  match tostring128_loop base (outLength - 1) number [] with
  | none => none
  | some collected => some (collected.reverse ++ [0])

/-- The function `nanoutil_unpack_balance_raw`: argument the raw balance,
result its decimal string, or `nil, "invalid balance"`.  The length of the
argument is assumed, not checked: 16 bytes are read at its pointer. -/
def nanoutil_unpack_balance_raw (after : Nat → Nat) (inp : List Nat) :
    Except String (List Nat) :=
  let balance := readu128BE (c_bytes after inp 16)
  match tostring128 balance 10 40 with
  | none => .error "invalid balance"
  | some out => .ok (lua_pushstring out)

/-- The function `nanoutil_pack_balance_raw`, whatever its arguments are:
`return luaL_error(L, "not implemented")`. -/
def nanoutil_pack_balance_raw (_args : List (List Nat)) : Except String (List Nat) :=
  .error "not implemented"

/-! ## `nanoutil_to_hex` and `nanoutil_from_hex` -/

/-- The table `hex_str` of `bin_to_strhex`. -/
def hex_str : List Nat := ascii "0123456789abcdef"

/-- `hex_str[i]`. -/
def hex_at (i : Nat) : Nat := hex_str.getD i 0

/-- The body of the loop of `bin_to_strhex` at index `i`:
`out[i * 2 + 0] = hex_str[(bin[i] >> 4) & 0x0F];
out[i * 2 + 1] = hex_str[(bin[i]) & 0x0F];`.  The index `i` is an
`unsigned int`, 32 bits wide, and so are `i * 2 + 0` and `i * 2 + 1`. -/
def bin_to_strhex_step (bin : List Nat) (i : Nat) (out : List Nat) : List Nat :=
  (out.set ((i * 2 + 0) % 2 ^ 32) (hex_at ((bin.getD i 0 >>> 4) &&& 0x0F))).set
    ((i * 2 + 1) % 2 ^ 32) (hex_at (bin.getD i 0 &&& 0x0F))

/-- The loop `for (i = 0; i < bin_len; i++)` of `bin_to_strhex` with `n`
iterations left, at index `i`; `i++` is taken in 32 bits. -/
def bin_to_strhex_loop (bin : List Nat) : Nat → Nat → List Nat → List Nat
  | 0, _, out => out
  | n + 1, i, out => bin_to_strhex_loop bin n ((i + 1) % 2 ^ 32) (bin_to_strhex_step bin i out)

/-- The function `bin_to_strhex` on a host with a 64-bit `size_t`: the buffer
`out` after the call.  The test `i < bin_len` compares the 32-bit `i` with
the 64-bit `bin_len`: for `bin_len` below `2 ^ 32` the loop ends after
`bin_len` iterations, and from `2 ^ 32` on `i` stays below `bin_len` for ever,
the call does not return, `none`.  After the loop `out[bin_len * 2] = 0`, an
index computed in `size_t`. -/
def bin_to_strhex (bin out : List Nat) : Option (List Nat) :=
  if 2 ^ 32 ≤ bin.length then
    none
  else
    some ((bin_to_strhex_loop bin bin.length 0 out).set (bin.length * 2) 0)

/-- The function `nanoutil_to_hex` (`bytes_to_hex`).  The allocation
`malloc(sz*2 + 1)` is taken to succeed; what the fresh buffer holds is the
parameter `fresh`.  The result is `none` when the call does not return. -/
def nanoutil_to_hex (fresh : Nat → Nat) (inp : List Nat) :
    Option (Except String (List Nat)) :=
  match bin_to_strhex inp ((List.range (inp.length * 2 + 1)).map fresh) with
  | none => none
  | some out => some (.ok (lua_pushstring out))

/-- A byte of a Lua string read through `const char *`: plain `char` is
signed or unsigned as the platform has it, the parameter `char_signed`. -/
def c_char (char_signed : Bool) (b : Nat) : Int :=
  if char_signed = true ∧ 128 ≤ b then (b : Int) - 256 else (b : Int)

/-- The byte stored by
`out[j] = (in[i] % 32 + 9) % 25 * 16 + (in[i+1] % 32 + 9) % 25`, with the
truncating `%` of C on `int` and the conversion of the sum to a byte. -/
def from_hex_byte (char_signed : Bool) (a b : Nat) : Nat :=
  ((Int.tmod (Int.tmod (c_char char_signed a) 32 + 9) 25 * 16
    + Int.tmod (Int.tmod (c_char char_signed b) 32 + 9) 25) % 256).toNat

/-- The loop of `nanoutil_from_hex` over the pairs of characters. -/
def from_hex_loop (char_signed : Bool) : List Nat → List Nat
  | a :: b :: rest => from_hex_byte char_signed a b :: from_hex_loop char_signed rest
  | _ => []

/-- The function `nanoutil_from_hex` (`hex_to_bytes`); the allocation of the
temporary buffer is taken to succeed. -/
def nanoutil_from_hex (char_signed : Bool) (inp : List Nat) : Except String (List Nat) :=
  if inp.length % 2 ≠ 0 then
    .error "from_hex input must have an even number of chars"
  else
    .ok (from_hex_loop char_signed inp)

/-- The hex characters of a byte string, two for each byte, in order. -/
def hex_chars : List Nat → List Nat
  | [] => []
  | b :: bin => hex_at ((b >>> 4) &&& 0x0F) :: hex_at (b &&& 0x0F) :: hex_chars bin

/-- A string of decimal digits read as a numeral. -/
def decimal_read (s : List Nat) : Nat := s.foldl (fun a ch => a * 10 + (ch - 0x30)) 0

/-! ## Reading an address as a numeral -/

/-- The digit value of a character: its index in the alphabet `b32`
(index 0 is `'1'`); 32 for a character outside the alphabet. -/
def digit_of (ch : Nat) : Nat := b32.indexOf ch

/-- A run of characters read as a base-32 numeral through the alphabet, most
significant digit first. -/
def base32_read (chars : List Nat) : Nat :=
  chars.foldl (fun a ch => a * 32 + digit_of ch) 0

/-- The `n` low base-32 digits of `v`, most significant first. -/
def digits32 : Nat → Nat → List Nat
  | 0, _ => []
  | n + 1, v => digits32 n (v / 32) ++ [v % 32]

/-- A character the decoder loop rejects: outside `0x31..0x7F`, or mapped to
`0xFF` by the table. -/
def rejected (past : Nat → Nat) (chr : Nat) : Prop :=
  chr < 0x31 ∨ chr ≥ 0x80 ∨ decode32_at past (chr - 0x31) = 0xFF

/-! ## Arithmetic of the machine operations -/

theorem and_1F (x : Nat) : x &&& 0x1F = x % 32 :=
  Nat.and_pow_two_sub_one_eq_mod x 5

theorem shr_5 (x : Nat) : x >>> 5 = x / 32 :=
  Nat.shiftRight_eq_div_pow x 5

theorem shl_5 (x : Nat) : x <<< 5 = x * 32 :=
  Nat.shiftLeft_eq x 5

theorem or_digit (q val : Nat) (hv : val < 32) : 32 * q ||| val = 32 * q + val :=
  (Nat.mul_add_lt_is_or (i := 5) hv q).symm

theorem LOWER_LOWER_and (x : Nat) : LOWER_LOWER x &&& 0x1F = x % 32 := by
  rw [and_1F]; unfold LOWER_LOWER; omega

theorem LOWER_LOWER_or_digit (x val : Nat) (hx : x % 32 = 0) (hv : val < 32) :
    LOWER_LOWER_or x val = x + val := by
  unfold LOWER_LOWER_or LOWER_LOWER
  have h1 : val % 2 ^ 64 = val := Nat.mod_eq_of_lt (by omega)
  have h2 : x % 2 ^ 64 = 32 * (x % 2 ^ 64 / 32) := by omega
  rw [h1, h2, or_digit _ _ hv]
  omega

theorem shiftl256_or_digit (acct val : Nat) (hv : val < 32) :
    LOWER_LOWER_or (shiftl256 acct 5) val = (acct * 32 + val) % 2 ^ 256 := by
  have h0 : shiftl256 acct 5 = acct * 32 % 2 ^ 256 := by
    unfold shiftl256; rw [shl_5]
  rw [h0, LOWER_LOWER_or_digit _ _ (by omega) hv]
  omega

theorem checksum_or_digit (checksum val : Nat) (hv : val < 32) :
    (checksum <<< 5) % 2 ^ 64 ||| val = (checksum * 32 + val) % 2 ^ 64 := by
  rw [shl_5]
  have h2 : checksum * 32 % 2 ^ 64 = 32 * (checksum * 32 % 2 ^ 64 / 32) := by omega
  rw [h2, or_digit _ _ hv]
  omega

/-! ## Bytes and digits -/

theorem le_value_lt (bs : List Nat) (h : IsBytes bs) : le_value bs < 256 ^ bs.length := by
  induction bs with
  | nil => simp [le_value]
  | cons b bs ih =>
    have hb : b < 256 := h b (List.mem_cons_self _ _)
    have := ih (fun x hx => h x (List.mem_cons_of_mem _ hx))
    simp only [le_value, List.length_cons, pow_succ]
    omega

theorem le_bytes_le_value (bs : List Nat) (h : IsBytes bs) :
    le_bytes bs.length (le_value bs) = bs := by
  induction bs with
  | nil => rfl
  | cons b bs ih =>
    have hb : b < 256 := h b (List.mem_cons_self _ _)
    have := ih (fun x hx => h x (List.mem_cons_of_mem _ hx))
    simp only [le_value, List.length_cons, le_bytes]
    have h1 : (b + 256 * le_value bs) % 256 = b := by omega
    have h2 : (b + 256 * le_value bs) / 256 = le_value bs := by omega
    rw [h1, h2, this]

theorem be_value_lt (bs : List Nat) (h : IsBytes bs) : be_value bs < 256 ^ bs.length := by
  have := le_value_lt bs.reverse (fun x hx => h x (List.mem_reverse.mp hx))
  simpa [be_value] using this

theorem be_bytes_be_value (bs : List Nat) (h : IsBytes bs) :
    be_bytes bs.length (be_value bs) = bs := by
  have := le_bytes_le_value bs.reverse (fun x hx => h x (List.mem_reverse.mp hx))
  simp only [List.length_reverse] at this
  simp [be_bytes, be_value, this]

theorem digits32_length (n v : Nat) : (digits32 n v).length = n := by
  induction n generalizing v with
  | zero => rfl
  | succ n ih => simp [digits32, ih]

theorem digits32_lt (n v : Nat) : ∀ d ∈ digits32 n v, d < 32 := by
  induction n generalizing v with
  | zero => simp [digits32]
  | succ n ih =>
    intro d hd
    simp only [digits32, List.mem_append, List.mem_singleton] at hd
    rcases hd with hd | hd
    · exact ih _ d hd
    · omega

theorem digits32_head (n v : Nat) :
    digits32 (n + 1) v = (v / 32 ^ n % 32) :: digits32 n v := by
  induction n generalizing v with
  | zero => simp [digits32]
  | succ n ih =>
    have e : digits32 (n + 1 + 1) v = digits32 (n + 1) (v / 32) ++ [v % 32] := rfl
    have e2 : digits32 (n + 1) v = digits32 n (v / 32) ++ [v % 32] := rfl
    rw [e, ih (v / 32), List.cons_append, ← e2, Nat.div_div_eq_div_mul, ← pow_succ']

/-- Horner evaluation of a digit list from an accumulator. -/
theorem horner_digits32 (n v a : Nat) :
    (digits32 n v).foldl (fun a d => a * 32 + d) a = a * 32 ^ n + v % 32 ^ n := by
  induction n generalizing v a with
  | zero => simp [digits32, Nat.mod_one]
  | succ n ih =>
    simp only [digits32, List.foldl_append, List.foldl_cons, List.foldl_nil, ih]
    rw [pow_succ', Nat.mod_mul]
    ring

/-! ## The two tables -/

theorem b32_table :
    ∀ d < 32, b32_at d ≠ 0 ∧ b32_at d ∈ b32 ∧ digit_of (b32_at d) = d := by
  decide

theorem decode32_table :
    ∀ ch ∈ b32, ¬(ch < 0x31 ∨ ch ≥ 0x80) ∧ ch - 0x31 < 76
      ∧ decode32.getD (ch - 0x31) 0 = digit_of ch ∧ digit_of ch < 32
      ∧ b32_at (digit_of ch) = ch := by
  decide

/-! ## The encoder -/

theorem unpack_acct_loop_eq (n : Nat) (out : List Nat) (cur acct : Nat) :
    unpack_acct_loop n out cur acct = unpack_checksum_loop n out cur acct := by
  induction n generalizing out cur acct with
  | zero => rfl
  | succ n ih =>
    simp only [unpack_acct_loop, unpack_checksum_loop, shiftr256, ih]
    rw [LOWER_LOWER_and, and_1F]

/-- One run of the digit loop over the cells `mid`, which end at `cur`: the
cells receive the `n` low digits of `x`, most significant first. -/
theorem unpack_checksum_loop_spec (n : Nat) (pre mid post : List Nat) (x : Nat)
    (hmid : mid.length = n) :
    unpack_checksum_loop n (pre ++ mid ++ post) (pre.length + n - 1) x
      = (pre ++ (digits32 n x).map b32_at ++ post, pre.length - 1, x / 32 ^ n) := by
  induction n generalizing mid post x with
  | zero =>
    have : mid = [] := List.length_eq_zero.mp hmid
    simp [unpack_checksum_loop, digits32, this]
  | succ n ih =>
    rcases List.eq_nil_or_concat mid with h | ⟨mid', m, h⟩
    · simp [h] at hmid
    · subst h
      simp only [List.concat_eq_append, List.length_append, List.length_singleton,
        Nat.add_right_cancel_iff] at hmid
      have hset : (pre ++ (mid' ++ [m]) ++ post).set (pre.length + (n + 1) - 1)
            (b32_at (x &&& 0x1F)) = pre ++ mid' ++ (b32_at (x % 32) :: post) := by
        have : pre ++ (mid' ++ [m]) ++ post = (pre ++ mid') ++ (m :: post) := by simp
        rw [this, List.set_append_right _ _ (by simp [hmid]), and_1F]
        simp [hmid]
      have hcur : pre.length + (n + 1) - 1 - 1 = pre.length + n - 1 := by omega
      simp only [List.concat_eq_append, unpack_checksum_loop]
      rw [hset, hcur, shr_5, ih mid' _ _ hmid]
      simp [digits32, Nat.div_div_eq_div_mul, pow_succ']

theorem lua_pushstring_spec (str : List Nat) (rest : List Nat) (h : ∀ ch ∈ str, ch ≠ 0) :
    lua_pushstring (str ++ 0 :: rest) = str := by
  unfold lua_pushstring
  induction str with
  | nil => simp
  | cons a t ih =>
    have ha : a ≠ 0 := h a (List.mem_cons_self _ _)
    simp only [List.cons_append, List.takeWhile_cons, bne_iff_ne, ne_eq, ha, not_false_eq_true,
      decide_True, ite_true, List.cons.injEq, true_and]
    exact ih (fun x hx => h x (List.mem_cons_of_mem _ hx))

theorem map_b32_at_ne_zero (n v : Nat) : ∀ ch ∈ (digits32 n v).map b32_at, ch ≠ 0 := by
  intro ch hch
  obtain ⟨d, hd, rfl⟩ := List.mem_map.mp hch
  exact (b32_table d (digits32_lt n v d hd)).1

/-- The address the encoder builds: the prefix, 52 key digits and 8 checksum
digits, each run with its most significant digit first. -/
theorem unpack_account_eq (acct_str checksum_str : List Nat)
    (hk : acct_str.length = 32) (hc : checksum_str.length = 5) :
    nanoutil_unpack_account_with_checksum acct_str checksum_str
      = .ok (ascii "xrb_" ++ (digits32 52 (readu256BE acct_str)).map b32_at
          ++ (digits32 8 (le_value (checksum_str.take 5) % 2 ^ 64)).map b32_at) := by
  have hout : (memcpy_front (List.replicate 65 0) (ascii "xrb_")).set 64 0
      = (ascii "xrb_" ++ List.replicate 52 0) ++ List.replicate 8 0 ++ [0] := by decide
  have h1 := unpack_checksum_loop_spec 8 (ascii "xrb_" ++ List.replicate 52 0)
    (List.replicate 8 0) [0] (le_value (checksum_str.take 5) % 2 ^ 64) (by simp)
  have h2 := unpack_checksum_loop_spec 52 (ascii "xrb_") (List.replicate 52 0)
    ((digits32 8 (le_value (checksum_str.take 5) % 2 ^ 64)).map b32_at ++ [0])
    (readu256BE acct_str) (by simp)
  have l1 : (ascii "xrb_" ++ List.replicate 52 0).length + 8 - 1 = 63 := by decide
  have l2 : (ascii "xrb_" ++ List.replicate 52 0).length - 1 = 55 := by decide
  have l3 : (ascii "xrb_").length + 52 - 1 = 55 := by decide
  rw [l1, l2] at h1
  rw [l3] at h2
  have hx : ∀ ch ∈ ascii "xrb_", ch ≠ 0 := by decide
  have hnz : ∀ ch ∈ ascii "xrb_" ++ (digits32 52 (readu256BE acct_str)).map b32_at
      ++ (digits32 8 (le_value (checksum_str.take 5) % 2 ^ 64)).map b32_at, ch ≠ 0 := by
    intro ch hch
    simp only [List.mem_append] at hch
    rcases hch with (hch | hch) | hch
    · exact hx ch hch
    · exact map_b32_at_ne_zero _ _ ch hch
    · exact map_b32_at_ne_zero _ _ ch hch
  unfold nanoutil_unpack_account_with_checksum
  rw [if_neg (by simp [hk]), if_neg (by simp [hc])]
  dsimp only
  rw [hout, h1]
  dsimp only
  rw [unpack_acct_loop_eq, List.append_assoc _ _ [0], h2]
  dsimp only
  rw [← List.append_assoc, lua_pushstring_spec _ [] hnz]

/-! ## The decoder -/

theorem cstr_of_drop (s : List Nat) (i a : Nat) (t : List Nat) (h : s.drop i = a :: t) :
    cstr s i = a ∧ s.drop (i + 1) = t := by
  have hi : i < s.length := by
    by_contra hn
    rw [List.drop_eq_nil_of_le (by omega)] at h
    exact List.noConfusion h
  rw [List.drop_eq_getElem_cons hi] at h
  injection h with h1 h2
  exact ⟨by simp [cstr, hi, h1], h2⟩

/-- One iteration of the decoder loop at an alphabet character. -/
theorem pack_loop_step (past : Nat → Nat) (s : List Nat) (n i acct checksum : Nat)
    (h : cstr s i ∈ b32) :
    pack_loop past s (n + 1) i acct checksum
      = if i < 56 then
          pack_loop past s n (i + 1) ((acct * 32 + digit_of (cstr s i)) % 2 ^ 256) checksum
        else
          pack_loop past s n (i + 1) acct ((checksum * 32 + digit_of (cstr s i)) % 2 ^ 64) := by
  obtain ⟨h1, h2, h3, h4, -⟩ := decode32_table _ h
  have hval : decode32_at past (cstr s i - 0x31) = digit_of (cstr s i) := by
    unfold decode32_at; rw [if_pos h2, h3]
  have hne : ¬ digit_of (cstr s i) = 0xFF := by omega
  rw [pack_loop]
  simp only [h1, if_false, hval, hne, shiftl256_or_digit _ _ h4, checksum_or_digit _ _ h4]

/-- The key phase of the decoder loop over a run `cs` of alphabet characters. -/
theorem pack_loop_key (past : Nat → Nat) (s : List Nat) (cs : List Nat) :
    ∀ (i acct checksum m : Nat) (rest : List Nat), s.drop i = cs ++ rest →
      (∀ ch ∈ cs, ch ∈ b32) → i + cs.length ≤ 56 →
      pack_loop past s (cs.length + m) i acct checksum
        = pack_loop past s m (i + cs.length)
            (cs.foldl (fun a ch => (a * 32 + digit_of ch) % 2 ^ 256) acct) checksum := by
  induction cs with
  | nil => intro i acct checksum m rest _ _ _; simp
  | cons c t ih =>
    intro i acct checksum m rest hdrop hmem hlen
    obtain ⟨hc, ht⟩ := cstr_of_drop s i c (t ++ rest) hdrop
    simp only [List.length_cons] at hlen ⊢
    have e1 : t.length + 1 + m = (t.length + m) + 1 := by omega
    rw [e1, pack_loop_step past s _ i acct checksum (by rw [hc]; exact hmem c (List.mem_cons_self _ _)),
      if_pos (by omega), hc,
      ih (i + 1) _ checksum m rest ht (fun x hx => hmem x (List.mem_cons_of_mem _ hx)) (by omega)]
    simp only [List.foldl_cons]
    congr 1
    omega

/-- The checksum phase of the decoder loop over a run `cs` of alphabet
characters. -/
theorem pack_loop_checksum (past : Nat → Nat) (s : List Nat) (cs : List Nat) :
    ∀ (i acct checksum m : Nat) (rest : List Nat), s.drop i = cs ++ rest →
      (∀ ch ∈ cs, ch ∈ b32) → 56 ≤ i →
      pack_loop past s (cs.length + m) i acct checksum
        = pack_loop past s m (i + cs.length) acct
            (cs.foldl (fun a ch => (a * 32 + digit_of ch) % 2 ^ 64) checksum) := by
  induction cs with
  | nil => intro i acct checksum m rest _ _ _; simp
  | cons c t ih =>
    intro i acct checksum m rest hdrop hmem hlen
    obtain ⟨hc, ht⟩ := cstr_of_drop s i c (t ++ rest) hdrop
    simp only [List.length_cons]
    have e1 : t.length + 1 + m = (t.length + m) + 1 := by omega
    rw [e1, pack_loop_step past s _ i acct checksum (by rw [hc]; exact hmem c (List.mem_cons_self _ _)),
      if_neg (by omega), hc,
      ih (i + 1) acct _ m rest ht (fun x hx => hmem x (List.mem_cons_of_mem _ hx)) (by omega)]
    simp only [List.foldl_cons]
    congr 1
    omega

theorem foldl_mod (M : Nat) (cs : List Nat) (a : Nat) :
    cs.foldl (fun a ch => (a * 32 + digit_of ch) % M) (a % M)
      = cs.foldl (fun a ch => a * 32 + digit_of ch) a % M := by
  induction cs generalizing a with
  | nil => simp
  | cons c t ih =>
    simp only [List.foldl_cons]
    rw [← ih]
    congr 1
    rw [Nat.add_mod, Nat.mul_mod, Nat.mod_mod, ← Nat.mul_mod, ← Nat.add_mod]

/-- What the decoder returns on a prefix followed by 52 and 8 alphabet
characters: the two runs read as numerals, reduced to 256 and 64 bits. -/
theorem pack_account_eq (past : Nat → Nat) (p K C : List Nat)
    (hp : p = ascii "xrb_" ∨ p = ascii "xrb-") (hK : K.length = 52) (hC : C.length = 8)
    (hKm : ∀ ch ∈ K, ch ∈ b32) (hCm : ∀ ch ∈ C, ch ∈ b32) :
    nanoutil_pack_account_with_checksum past (p ++ K ++ C)
      = .ok (be_bytes 32 (base32_read K % 2 ^ 256), le_bytes 5 (base32_read C % 2 ^ 64)) := by
  have hlen : p.length = 4 := by rcases hp with h | h <;> subst h <;> decide
  have hpre : ¬(cstr (p ++ K ++ C) 0 ≠ 0x78 ∨ cstr (p ++ K ++ C) 1 ≠ 0x72
      ∨ cstr (p ++ K ++ C) 2 ≠ 0x62
      ∨ ¬(cstr (p ++ K ++ C) 3 = 0x5F ∨ cstr (p ++ K ++ C) 3 = 0x2D)) := by
    rcases hp with h | h <;> subst h <;> simp [cstr, ascii]
  have hd4 : (p ++ K ++ C).drop 4 = K ++ C := by
    rw [List.append_assoc, ← hlen, List.drop_left]
  have hd56 : (p ++ K ++ C).drop (4 + K.length) = C ++ [] := by
    rw [List.append_nil, ← hlen, ← List.length_append, List.drop_left]
  have h1 := pack_loop_key past (p ++ K ++ C) K 4 clear256 0 8 C hd4 hKm (by omega)
  have h2 := pack_loop_checksum past (p ++ K ++ C) C (4 + K.length)
    (K.foldl (fun a ch => (a * 32 + digit_of ch) % 2 ^ 256) clear256) 0 0 [] hd56 hCm (by omega)
  have f1 := foldl_mod (2 ^ 256) K 0
  have f2 := foldl_mod (2 ^ 64) C 0
  rw [Nat.zero_mod] at f1 f2
  rw [hK] at h1
  rw [hC, hK] at h2
  unfold nanoutil_pack_account_with_checksum
  rw [if_neg hpre, h1, h2]
  simp only [pack_loop, clear256, f1, f2, torawstring256, base32_read]

theorem foldl_map_b32_at (ds : List Nat) (h : ∀ d ∈ ds, d < 32) (a : Nat) :
    (ds.map b32_at).foldl (fun a ch => a * 32 + digit_of ch) a
      = ds.foldl (fun a d => a * 32 + d) a := by
  induction ds generalizing a with
  | nil => rfl
  | cons d t ih =>
    simp only [List.map_cons, List.foldl_cons]
    rw [(b32_table d (h d (List.mem_cons_self _ _))).2.2,
      ih (fun x hx => h x (List.mem_cons_of_mem _ hx))]

theorem base32_read_digits32 (n v : Nat) :
    base32_read ((digits32 n v).map b32_at) = v % 32 ^ n := by
  unfold base32_read
  rw [foldl_map_b32_at _ (digits32_lt n v), horner_digits32]
  simp

theorem map_b32_at_mem (n v : Nat) : ∀ ch ∈ (digits32 n v).map b32_at, ch ∈ b32 := by
  intro ch hch
  obtain ⟨d, hd, rfl⟩ := List.mem_map.mp hch
  exact (b32_table d (digits32_lt n v d hd)).2.1

theorem readu256BE_eq (k : List Nat) (hk : k.length = 32) (hkb : IsBytes k) :
    readu256BE k = be_value k := by
  have h := be_value_lt k hkb
  rw [hk] at h
  unfold readu256BE
  rw [List.take_of_length_le (by omega)]
  exact Nat.mod_eq_of_lt (by norm_num at h ⊢; exact h)

theorem checksum_eq (c : List Nat) (hc : c.length = 5) (hcb : IsBytes c) :
    le_value (c.take 5) % 2 ^ 64 = le_value c ∧ le_value c < 2 ^ 40 := by
  have h := le_value_lt c hcb
  rw [hc] at h
  rw [List.take_of_length_le (by omega)]
  norm_num at h ⊢
  omega

/-! ## The properties of the specification -/

/-- C1. Round trip: for every 32-byte key `k` and 5-byte checksum `c` the
encoder returns an address, and the decoder applied to that address succeeds
and returns exactly `(k, c)`. -/
theorem unpack_pack_round_trip (past : Nat → Nat) (k c : List Nat)
    (hk : k.length = 32) (hc : c.length = 5) (hkb : IsBytes k) (hcb : IsBytes c) :
    ∃ s, nanoutil_unpack_account_with_checksum k c = .ok s
      ∧ nanoutil_pack_account_with_checksum past s = .ok (k, c) := by
  refine ⟨_, unpack_account_eq k c hk hc, ?_⟩
  rw [pack_account_eq past _ _ _ (Or.inl rfl) (by simp [digits32_length])
    (by simp [digits32_length]) (map_b32_at_mem _ _) (map_b32_at_mem _ _),
    base32_read_digits32, base32_read_digits32, readu256BE_eq k hk hkb,
    (checksum_eq c hc hcb).1]
  have h1 := be_value_lt k hkb
  have h2 := (checksum_eq c hc hcb).2
  rw [hk] at h1
  have e1 : be_value k % 32 ^ 52 % 2 ^ 256 = be_value k := by
    norm_num at h1 ⊢; omega
  have e2 : le_value c % 32 ^ 8 % 2 ^ 64 = le_value c := by
    norm_num at h2 ⊢; omega
  have b1 := be_bytes_be_value k hkb
  have b2 := le_bytes_le_value c hcb
  rw [hk] at b1
  rw [hc] at b2
  rw [e1, e2, b1, b2]

theorem unpack_pack_round_trip_witness :
    (List.range 32).length = 32 ∧ [1, 2, 3, 4, 255].length = 5
      ∧ IsBytes (List.range 32) ∧ IsBytes [1, 2, 3, 4, 255]
      ∧ ∃ s, nanoutil_unpack_account_with_checksum (List.range 32) [1, 2, 3, 4, 255] = .ok s
        ∧ nanoutil_pack_account_with_checksum (fun _ => 0) s
            = .ok (List.range 32, [1, 2, 3, 4, 255]) :=
  ⟨by decide, by decide, by decide, by decide,
    unpack_pack_round_trip (fun _ => 0) (List.range 32) [1, 2, 3, 4, 255]
      (by decide) (by decide) (by decide) (by decide)⟩

/-- C2. For every 32-byte key and 5-byte checksum the encoder returns a
string of length exactly 64 whose first four characters are `xrb_`. -/
theorem unpack_length_and_prefix (k c : List Nat) (hk : k.length = 32) (hc : c.length = 5) :
    ∃ s, nanoutil_unpack_account_with_checksum k c = .ok s
      ∧ s.length = 64 ∧ s.take 4 = ascii "xrb_" := by
  refine ⟨_, unpack_account_eq k c hk hc, ?_, ?_⟩
  · simp only [List.length_append, List.length_map, digits32_length]
    decide
  · rw [List.append_assoc]
    exact List.take_left' (by decide)

theorem unpack_length_and_prefix_witness :
    (List.replicate 32 255).length = 32 ∧ [0, 1, 2, 3, 4].length = 5
      ∧ ∃ s, nanoutil_unpack_account_with_checksum (List.replicate 32 255) [0, 1, 2, 3, 4] = .ok s
        ∧ s.length = 64 ∧ s.take 4 = ascii "xrb_" :=
  ⟨by decide, by decide,
    unpack_length_and_prefix (List.replicate 32 255) [0, 1, 2, 3, 4] (by decide) (by decide)⟩

/-- C3. For every 32-byte key and 5-byte checksum every character at the
positions 4..63 of the encoder output is one of the 32 symbols of the
alphabet `13456789abcdefghijkmnopqrstuwxyz`. -/
theorem unpack_alphabet_closure (k c : List Nat) (hk : k.length = 32) (hc : c.length = 5) :
    ∃ s, nanoutil_unpack_account_with_checksum k c = .ok s
      ∧ ∀ i, 4 ≤ i → i < 64 → ∃ ch, s.get? i = some ch
          ∧ ch ∈ ascii "13456789abcdefghijkmnopqrstuwxyz" := by
  refine ⟨_, unpack_account_eq k c hk hc, ?_⟩
  intro i h4 h64
  have hlen : (ascii "xrb_").length = 4 := by decide
  have key : ∀ L : List Nat, (∀ ch ∈ L, ch ∈ b32) → L.length = 60 →
      ∃ ch, (ascii "xrb_" ++ L).get? i = some ch ∧ ch ∈ b32 := by
    intro L hL hlenL
    have hi : i - 4 < L.length := by omega
    refine ⟨L[i - 4], ?_, hL _ (List.getElem_mem hi)⟩
    rw [List.get?_eq_getElem?, List.getElem?_append_right (by omega), hlen,
      List.getElem?_eq_getElem hi]
  rw [List.append_assoc]
  refine key _ ?_ ?_
  · intro ch hch
    rcases List.mem_append.mp hch with h | h
    · exact map_b32_at_mem _ _ _ h
    · exact map_b32_at_mem _ _ _ h
  · simp only [List.length_append, List.length_map, digits32_length]

theorem unpack_alphabet_closure_witness :
    (List.range 32).length = 32 ∧ [9, 8, 7, 6, 5].length = 5
      ∧ ∃ s, nanoutil_unpack_account_with_checksum (List.range 32) [9, 8, 7, 6, 5] = .ok s
        ∧ ∀ i, 4 ≤ i → i < 64 → ∃ ch, s.get? i = some ch
            ∧ ch ∈ ascii "13456789abcdefghijkmnopqrstuwxyz" :=
  ⟨by decide, by decide,
    unpack_alphabet_closure (List.range 32) [9, 8, 7, 6, 5] (by decide) (by decide)⟩

/-- C4. For every 32-byte key `k` and 5-byte checksum `c` the 52 characters
at the positions 4..55 of the encoder output are alphabet symbols which, read
as base-32 digits with the most significant digit first, denote exactly the
big-endian 256-bit value of `k`; the character at position 4 is `'1'` or
`'3'`. -/
theorem unpack_key_digits (k c : List Nat) (hk : k.length = 32) (hc : c.length = 5)
    (hkb : IsBytes k) :
    ∃ s, nanoutil_unpack_account_with_checksum k c = .ok s
      ∧ ((s.drop 4).take 52).length = 52
      ∧ (∀ ch ∈ (s.drop 4).take 52, ch ∈ b32)
      ∧ base32_read ((s.drop 4).take 52) = be_value k
      ∧ (s.get? 4 = some 0x31 ∨ s.get? 4 = some 0x33) := by
  refine ⟨_, unpack_account_eq k c hk hc, ?_⟩
  have hlen : (ascii "xrb_").length = 4 := by decide
  have hK : ((digits32 52 (readu256BE k)).map b32_at).length = 52 := by
    simp [digits32_length]
  have hv := be_value_lt k hkb
  rw [hk] at hv
  have hd : (ascii "xrb_" ++ (digits32 52 (readu256BE k)).map b32_at
      ++ (digits32 8 (le_value (c.take 5) % 2 ^ 64)).map b32_at).drop 4
      = (digits32 52 (readu256BE k)).map b32_at
        ++ (digits32 8 (le_value (c.take 5) % 2 ^ 64)).map b32_at := by
    rw [List.append_assoc]; exact List.drop_left' hlen
  have ht : ((ascii "xrb_" ++ (digits32 52 (readu256BE k)).map b32_at
      ++ (digits32 8 (le_value (c.take 5) % 2 ^ 64)).map b32_at).drop 4).take 52
      = (digits32 52 (readu256BE k)).map b32_at := by
    rw [hd]; exact List.take_left' hK
  rw [ht]
  refine ⟨hK, map_b32_at_mem _ _, ?_, ?_⟩
  · rw [base32_read_digits32, readu256BE_eq k hk hkb]
    norm_num at hv ⊢; omega
  · have h4 : (ascii "xrb_" ++ (digits32 52 (readu256BE k)).map b32_at
        ++ (digits32 8 (le_value (c.take 5) % 2 ^ 64)).map b32_at).get? 4
        = some (b32_at (readu256BE k / 32 ^ 51 % 32)) := by
      rw [List.get?_eq_getElem?, ← Nat.add_zero 4, ← List.getElem?_drop, hd]
      rw [digits32_head 51, List.map_cons, List.cons_append, List.getElem?_cons_zero]
    rw [h4, readu256BE_eq k hk hkb]
    have h01 : be_value k / 32 ^ 51 % 32 = 0 ∨ be_value k / 32 ^ 51 % 32 = 1 := by
      norm_num at hv ⊢; omega
    rcases h01 with h | h <;> rw [h]
    · left; rfl
    · right; rfl

theorem unpack_key_digits_witness :
    (List.replicate 32 255).length = 32 ∧ [1, 2, 3, 4, 5].length = 5
      ∧ IsBytes (List.replicate 32 255)
      ∧ ∃ s, nanoutil_unpack_account_with_checksum (List.replicate 32 255) [1, 2, 3, 4, 5] = .ok s
        ∧ ((s.drop 4).take 52).length = 52
        ∧ (∀ ch ∈ (s.drop 4).take 52, ch ∈ b32)
        ∧ base32_read ((s.drop 4).take 52) = be_value (List.replicate 32 255)
        ∧ (s.get? 4 = some 0x31 ∨ s.get? 4 = some 0x33) :=
  ⟨by decide, by decide, by decide,
    unpack_key_digits (List.replicate 32 255) [1, 2, 3, 4, 5] (by decide) (by decide)
      (by decide)⟩

/-- C5. For every 32-byte key `k` and 5-byte checksum `c` the 8 characters at
the positions 56..63 of the encoder output are alphabet symbols which, read as
base-32 digits with the most significant digit leftmost, denote exactly
`c[0] + 256*c[1] + 256^2*c[2] + 256^3*c[3] + 256^4*c[4]`, the little-endian
value of the checksum buffer. -/
theorem unpack_checksum_digits (k : List Nat) (c0 c1 c2 c3 c4 : Nat) (hk : k.length = 32)
    (h0 : c0 < 256) (h1 : c1 < 256) (h2 : c2 < 256) (h3 : c3 < 256) (h4 : c4 < 256) :
    ∃ s, nanoutil_unpack_account_with_checksum k [c0, c1, c2, c3, c4] = .ok s
      ∧ (s.drop 56).length = 8
      ∧ (∀ ch ∈ s.drop 56, ch ∈ b32)
      ∧ base32_read (s.drop 56)
          = c0 + 256 * c1 + 256 ^ 2 * c2 + 256 ^ 3 * c3 + 256 ^ 4 * c4 := by
  refine ⟨_, unpack_account_eq k [c0, c1, c2, c3, c4] hk rfl, ?_⟩
  have hlen : (ascii "xrb_" ++ (digits32 52 (readu256BE k)).map b32_at).length = 56 := by
    simp only [List.length_append, List.length_map, digits32_length]; decide
  rw [List.drop_left' hlen]
  refine ⟨by simp [digits32_length], map_b32_at_mem _ _, ?_⟩
  rw [base32_read_digits32]
  simp only [List.take, le_value]
  norm_num
  omega

theorem unpack_checksum_digits_witness :
    (List.range 32).length = 32 ∧ (200 : Nat) < 256 ∧ (1 : Nat) < 256 ∧ (0 : Nat) < 256
      ∧ (77 : Nat) < 256 ∧ (255 : Nat) < 256
      ∧ ∃ s, nanoutil_unpack_account_with_checksum (List.range 32) [200, 1, 0, 77, 255] = .ok s
        ∧ (s.drop 56).length = 8
        ∧ (∀ ch ∈ s.drop 56, ch ∈ b32)
        ∧ base32_read (s.drop 56)
            = 200 + 256 * 1 + 256 ^ 2 * 0 + 256 ^ 3 * 77 + 256 ^ 4 * 255 :=
  ⟨by decide, by decide, by decide, by decide, by decide, by decide,
    unpack_checksum_digits (List.range 32) 200 1 0 77 255 (by decide) (by decide) (by decide)
      (by decide) (by decide) (by decide)⟩

/-! ## Rejection by the decoder -/

theorem pack_loop_rejected (past : Nat → Nat) (s : List Nat) (j : Nat)
    (hj : rejected past (cstr s j)) :
    ∀ n i acct checksum, i ≤ j → j < i + n →
      pack_loop past s n i acct checksum = .error "invalid_account" := by
  intro n
  induction n with
  | zero => intro i acct checksum h1 h2; omega
  | succ n ih =>
    intro i acct checksum h1 h2
    rw [pack_loop]
    by_cases hr : cstr s i < 0x31 ∨ cstr s i ≥ 0x80
    · simp only [hr, if_true]
    · by_cases hv : decode32_at past (cstr s i - 0x31) = 0xFF
      · simp only [hr, if_false, hv, if_true]
      · have hij : i ≠ j := by
          rintro rfl
          rcases hj with h | h | h
          · exact hr (Or.inl h)
          · exact hr (Or.inr h)
          · exact hv h
        simp only [hr, if_false, hv]
        split
        · exact ih _ _ _ (by omega) (by omega)
        · exact ih _ _ _ (by omega) (by omega)

theorem pack_loop_congr (past : Nat → Nat) (s t : List Nat) :
    ∀ n i acct checksum, (∀ j, i ≤ j → j < i + n → cstr s j = cstr t j) →
      pack_loop past s n i acct checksum = pack_loop past t n i acct checksum := by
  intro n
  induction n with
  | zero => intro i acct checksum _; rfl
  | succ n ih =>
    intro i acct checksum h
    have hs : ∀ a c, pack_loop past s n (i + 1) a c = pack_loop past t n (i + 1) a c :=
      fun a c => ih (i + 1) a c (fun j h1 h2 => h j (by omega) (by omega))
    rw [pack_loop, pack_loop, h i (Nat.le_refl i) (by omega)]
    simp only [hs]

/-- The decoder fails as soon as one of the 64 characters it reads, or the
terminator of a shorter string, cannot be accepted at its position. -/
theorem pack_account_rejected (past : Nat → Nat) (s : List Nat) (j : Nat)
    (h4 : 4 ≤ j) (h64 : j < 64) (hj : rejected past (cstr s j)) :
    nanoutil_pack_account_with_checksum past s = .error "invalid_account" := by
  unfold nanoutil_pack_account_with_checksum
  split
  · rfl
  · rw [pack_loop_rejected past s j hj 60 4 clear256 0 h4 (by omega)]

theorem rejected_table (past : Nat → Nat) :
    ∀ chr, chr < 0x7C → chr ∉ b32 → rejected past chr := by
  have h : ∀ chr, chr < 0x7C → chr ∉ b32 →
      chr < 0x31 ∨ decode32.getD (chr - 0x31) 0 = 0xFF := by decide
  intro chr h1 h2
  rcases h chr h1 h2 with h3 | h3
  · exact Or.inl h3
  · refine Or.inr (Or.inr ?_)
    unfold decode32_at
    rw [if_pos (by omega), h3]

theorem cstr_terminator (s : List Nat) (i : Nat) (h : s.length ≤ i) : cstr s i = 0 := by
  unfold cstr
  exact List.getD_eq_default _ _ h

theorem cstr_take (s : List Nat) (n j : Nat) (h : j < n) : cstr (s.take n) j = cstr s j := by
  unfold cstr
  rw [List.getD_eq_getElem?_getD, List.getD_eq_getElem?_getD, List.getElem?_take_of_lt h]

/-- The decoder reads the characters 0..63 only. -/
theorem pack_account_congr (past : Nat → Nat) (s t : List Nat)
    (h : ∀ j, j < 64 → cstr s j = cstr t j) :
    nanoutil_pack_account_with_checksum past s = nanoutil_pack_account_with_checksum past t := by
  unfold nanoutil_pack_account_with_checksum
  rw [h 0 (by omega), h 1 (by omega), h 2 (by omega), h 3 (by omega),
    pack_loop_congr past s t 60 4 clear256 0 (fun j _ h2 => h j (by omega))]

theorem pack_loop_past (past past' : Nat → Nat) (s : List Nat) :
    ∀ n i acct checksum, (∀ j, i ≤ j → j < i + n → cstr s j < 0x7D) →
      pack_loop past s n i acct checksum = pack_loop past' s n i acct checksum := by
  intro n
  induction n with
  | zero => intro i acct checksum _; rfl
  | succ n ih =>
    intro i acct checksum h
    have hs : ∀ a c, pack_loop past s n (i + 1) a c = pack_loop past' s n (i + 1) a c :=
      fun a c => ih (i + 1) a c (fun j h1 h2 => h j (by omega) (by omega))
    have hi := h i (Nat.le_refl i) (by omega)
    have hd : decode32_at past (cstr s i - 0x31) = decode32_at past' (cstr s i - 0x31) := by
      unfold decode32_at
      rw [if_pos (by omega), if_pos (by omega)]
    rw [pack_loop, pack_loop, hd]
    simp only [hs]

/-- The bytes that follow `decode32` in memory are read only for one of the
characters `0x7D..0x7F`. -/
theorem pack_account_past (past past' : Nat → Nat) (s : List Nat)
    (h : ∀ j, j < 64 → 4 ≤ j → cstr s j < 0x7D) :
    nanoutil_pack_account_with_checksum past s = nanoutil_pack_account_with_checksum past' s := by
  unfold nanoutil_pack_account_with_checksum
  rw [pack_loop_past past past' s 60 4 clear256 0 (fun j h1 h2 => h j (by omega) h1)]

/-- C6 (as the code has it). The decoder never looks at the length of its
argument.  A string shorter than 64 characters fails, because the loop meets
its terminator; of a longer string only the first 64 characters are read, and
the result is that of this 64-character prefix. -/
theorem pack_account_length (past : Nat → Nat) (s : List Nat) :
    nanoutil_pack_account_with_checksum past s
      = if s.length < 64 then .error "invalid_account"
        else nanoutil_pack_account_with_checksum past (s.take 64) := by
  split
  · rename_i hlt
    by_cases h4 : 4 ≤ s.length
    · exact pack_account_rejected past s s.length h4 hlt
        (Or.inl (by rw [cstr_terminator s _ (Nat.le_refl _)]; decide))
    · unfold nanoutil_pack_account_with_checksum
      have h3 : cstr s 3 = 0 := cstr_terminator s 3 (by omega)
      rw [if_pos (Or.inr (Or.inr (Or.inr (by rw [h3]; decide))))]
  · exact pack_account_congr past s _ (fun j hj => (cstr_take s 64 j hj).symm)

/-- C6 (counterexample). A 66-character string, a well-formed address
followed by two more characters, is decoded successfully. -/
theorem pack_account_accepts_longer :
    (ascii "xrb_" ++ List.replicate 60 0x31 ++ ascii "zz").length ≠ 64
      ∧ ∀ past, nanoutil_pack_account_with_checksum past
          (ascii "xrb_" ++ List.replicate 60 0x31 ++ ascii "zz")
        = .ok (List.replicate 32 0, List.replicate 5 0) :=
  ⟨by decide, fun past =>
    (pack_account_past past (fun _ => 0) _ (by decide)).trans (by decide!)⟩

/-- C7 (the code at the failing input). The character `'|'` (0x7C) is not
in the alphabet, but the decoder reads the terminator of `decode32` for it
and takes it for the digit 0: the address is decoded successfully. -/
theorem pack_account_accepts_bar :
    0x7C ∉ b32 ∧ ∀ past, nanoutil_pack_account_with_checksum past
        (ascii "xrb_|" ++ List.replicate 59 0x31)
      = .ok (List.replicate 32 0, List.replicate 5 0) :=
  ⟨by decide, fun past =>
    (pack_account_past past (fun _ => 0) _ (by decide)).trans (by decide!)⟩

/-- C8. The decoder fails for every 64-character string beginning with `xrb_`
or `xrb-` that has `'0'`, `'2'`, `'l'`, `'v'` or an uppercase letter
`'A'..'Z'` at some position in 4..63. -/
theorem pack_account_rejects_confusable (past : Nat → Nat) (s : List Nat) (i : Nat)
    (_hlen : s.length = 64) (_hp : s.take 4 = ascii "xrb_" ∨ s.take 4 = ascii "xrb-")
    (h4 : 4 ≤ i) (h64 : i < 64)
    (hch : s.get? i = some 0x30 ∨ s.get? i = some 0x32 ∨ s.get? i = some 0x6C
      ∨ s.get? i = some 0x76 ∨ ∃ ch, s.get? i = some ch ∧ 0x41 ≤ ch ∧ ch ≤ 0x5A) :
    nanoutil_pack_account_with_checksum past s = .error "invalid_account" := by
  have hbad : ∀ ch, ch = 0x30 ∨ ch = 0x32 ∨ ch = 0x6C ∨ ch = 0x76 ∨ (0x41 ≤ ch ∧ ch ≤ 0x5A) →
      ch < 0x7C ∧ ch ∉ b32 := by
    intro ch h
    have : ch < 0x7C := by omega
    refine ⟨this, ?_⟩
    revert h
    revert ch
    decide
  have hget : ∀ ch, s.get? i = some ch → cstr s i = ch := by
    intro ch h
    unfold cstr
    rw [List.getD_eq_getElem?_getD, ← List.get?_eq_getElem?, h]; rfl
  have hc : cstr s i < 0x7C ∧ cstr s i ∉ b32 := by
    apply hbad
    rcases hch with h | h | h | h | ⟨ch, h, h1, h2⟩
    · exact Or.inl (hget _ h)
    · exact Or.inr (Or.inl (hget _ h))
    · exact Or.inr (Or.inr (Or.inl (hget _ h)))
    · exact Or.inr (Or.inr (Or.inr (Or.inl (hget _ h))))
    · rw [hget _ h]; exact Or.inr (Or.inr (Or.inr (Or.inr ⟨h1, h2⟩)))
  exact pack_account_rejected past s i h4 h64 (rejected_table past _ hc.1 hc.2)

theorem pack_account_rejects_confusable_witness :
    (ascii "xrb_" ++ List.replicate 59 0x31 ++ ascii "Z").length = 64
      ∧ (ascii "xrb_" ++ List.replicate 59 0x31 ++ ascii "Z").take 4 = ascii "xrb_"
      ∧ (ascii "xrb_" ++ List.replicate 59 0x31 ++ ascii "Z").get? 63 = some 0x5A
      ∧ nanoutil_pack_account_with_checksum (fun _ => 0)
          (ascii "xrb_" ++ List.replicate 59 0x31 ++ ascii "Z") = .error "invalid_account" :=
  ⟨by decide, by decide, by decide,
    pack_account_rejects_confusable (fun _ => 0)
      (ascii "xrb_" ++ List.replicate 59 0x31 ++ ascii "Z") 63 (by decide) (Or.inl (by decide))
      (by decide) (by decide)
      (Or.inr (Or.inr (Or.inr (Or.inr ⟨0x5A, by decide, by decide, by decide⟩))))⟩

/-- C9. The decoder fails for every 64-character string whose first four
characters are neither `xrb_` nor `xrb-`, whatever the other 60 characters
are. -/
theorem pack_account_rejects_prefix (past : Nat → Nat) (s : List Nat) (hlen : s.length = 64)
    (h1 : s.take 4 ≠ ascii "xrb_") (h2 : s.take 4 ≠ ascii "xrb-") :
    nanoutil_pack_account_with_checksum past s = .error "invalid_account" := by
  unfold nanoutil_pack_account_with_checksum
  split
  · rfl
  · rename_i hpre
    exfalso
    rcases s with _ | ⟨a, _ | ⟨b, _ | ⟨c, _ | ⟨d, rest⟩⟩⟩⟩
    · simp at hlen
    · simp at hlen
    · simp at hlen
    · simp at hlen
    · simp only [cstr, List.getD_cons_zero, List.getD_cons_succ, ne_eq, not_or, not_not] at hpre
      obtain ⟨ha, hb, hc, hd⟩ := hpre
      subst ha hb hc
      apply hd
      constructor
      · rintro rfl; exact h1 rfl
      · rintro rfl; exact h2 rfl

theorem pack_account_rejects_prefix_witness :
    (ascii "nano" ++ List.replicate 60 0x31).length = 64
      ∧ (ascii "nano" ++ List.replicate 60 0x31).take 4 ≠ ascii "xrb_"
      ∧ (ascii "nano" ++ List.replicate 60 0x31).take 4 ≠ ascii "xrb-"
      ∧ nanoutil_pack_account_with_checksum (fun _ => 0)
          (ascii "nano" ++ List.replicate 60 0x31) = .error "invalid_account" :=
  ⟨by decide, by decide, by decide,
    pack_account_rejects_prefix (fun _ => 0) (ascii "nano" ++ List.replicate 60 0x31)
      (by decide) (by decide) (by decide)⟩

/-! ## The redundant bits of the first key digit -/

theorem cstr_append_left (p l : List Nat) (i : Nat) (h : i < p.length) :
    cstr (p ++ l) i = cstr p i := by
  unfold cstr
  rw [List.getD_eq_getElem?_getD, List.getD_eq_getElem?_getD, List.getElem?_append_left h]

theorem cstr_append_right (p l : List Nat) (i : Nat) (h : p.length ≤ i) :
    cstr (p ++ l) i = cstr l (i - p.length) := by
  unfold cstr
  rw [List.getD_eq_getElem?_getD, List.getD_eq_getElem?_getD, List.getElem?_append_right h]

theorem cstr_of_mem (l : List Nat) (ch : Nat) (h : ch ∈ l) :
    ∃ n, n < l.length ∧ cstr l n = ch := by
  obtain ⟨n, hn, rfl⟩ := List.mem_iff_getElem.mp h
  exact ⟨n, hn, by unfold cstr; rw [List.getD_eq_getElem _ _ hn]⟩

/-- A 64-character string is four characters, then 52, then 8. -/
theorem address_split (s : List Nat) (hlen : s.length = 64) :
    ∃ p k0 K C, s = p ++ (k0 :: K) ++ C ∧ p.length = 4 ∧ K.length = 51 ∧ C.length = 8 := by
  have h1 : (s.take 4).length = 4 := by rw [List.length_take]; omega
  have h2 : ((s.drop 4).take 52).length = 52 := by
    rw [List.length_take, List.length_drop]; omega
  have h3 : ((s.drop 4).drop 52).length = 8 := by
    rw [List.length_drop, List.length_drop]; omega
  have hs : s = s.take 4 ++ (s.drop 4).take 52 ++ (s.drop 4).drop 52 := by
    rw [List.append_assoc, List.take_append_drop, List.take_append_drop]
  rcases hK : (s.drop 4).take 52 with _ | ⟨k0, K⟩
  · rw [hK] at h2; simp at h2
  · rw [hK] at h2 hs
    exact ⟨s.take 4, k0, K, (s.drop 4).drop 52, hs, h1, by simpa using h2, h3⟩

theorem foldl_shift (l : List Nat) (a : Nat) :
    l.foldl (fun a ch => a * 32 + digit_of ch) a
      = a * 32 ^ l.length + l.foldl (fun a ch => a * 32 + digit_of ch) 0 := by
  induction l generalizing a with
  | nil => simp
  | cons c t ih =>
    simp only [List.foldl_cons, List.length_cons]
    rw [ih (a * 32 + digit_of c), ih (0 * 32 + digit_of c)]
    ring

theorem base32_read_cons (c : Nat) (t : List Nat) :
    base32_read (c :: t) = digit_of c * 32 ^ t.length + base32_read t := by
  unfold base32_read
  rw [List.foldl_cons, foldl_shift]
  simp

/-- C10. Redundant-bit handling: for every 64-character string `s` with the
prefix `xrb_` or `xrb-` and alphabet characters at all the positions 4..63 the
decoder succeeds, whatever the first key digit is; the key it returns is the
52-digit numeral reduced modulo `2 ^ 256`, and replacing the character at
position 4 by any alphabet symbol whose digit value has the same lowest bit
gives the same key and checksum. -/
theorem pack_account_redundant_bits (past : Nat → Nat) (s : List Nat) (hlen : s.length = 64)
    (hp : s.take 4 = ascii "xrb_" ∨ s.take 4 = ascii "xrb-")
    (hal : ∀ i, 4 ≤ i → i < 64 → cstr s i ∈ b32) :
    ∃ k c, nanoutil_pack_account_with_checksum past s = .ok (k, c)
      ∧ k = be_bytes 32 (base32_read ((s.drop 4).take 52) % 2 ^ 256)
      ∧ ∀ ch ∈ b32, digit_of ch % 2 = digit_of (cstr s 4) % 2 →
          nanoutil_pack_account_with_checksum past (s.set 4 ch) = .ok (k, c) := by
  obtain ⟨p, k0, K, C, rfl, hpl, hK, hC⟩ := address_split s hlen
  have hp' : p = ascii "xrb_" ∨ p = ascii "xrb-" := by
    rw [List.append_assoc, List.take_left' hpl] at hp; exact hp
  have hmem : ∀ ch ∈ (k0 :: K) ++ C, ch ∈ b32 := by
    intro ch hch
    obtain ⟨n, hn, rfl⟩ := cstr_of_mem _ ch hch
    have hn' : n < 60 := by
      simp only [List.length_append, List.length_cons, hK, hC] at hn; omega
    have := hal (4 + n) (by omega) (by omega)
    rw [List.append_assoc, cstr_append_right _ _ _ (by omega), hpl] at this
    simpa using this
  have hKm : ∀ ch ∈ k0 :: K, ch ∈ b32 := fun ch h => hmem ch (List.mem_append_left _ h)
  have hCm : ∀ ch ∈ C, ch ∈ b32 := fun ch h => hmem ch (List.mem_append_right _ h)
  have hk0 : cstr (p ++ (k0 :: K) ++ C) 4 = k0 := by
    rw [List.append_assoc, cstr_append_right _ _ _ (by omega), hpl]; rfl
  have hKtake : ((p ++ (k0 :: K) ++ C).drop 4).take 52 = k0 :: K := by
    rw [List.append_assoc, List.drop_left' hpl, List.take_left' (by simp [hK])]
  have hset : ∀ ch, (p ++ (k0 :: K) ++ C).set 4 ch = p ++ (ch :: K) ++ C := by
    intro ch
    rw [List.append_assoc, List.set_append_right _ _ (by omega), hpl]
    simp
  refine ⟨_, _, pack_account_eq past p (k0 :: K) C hp' (by simp [hK]) hC hKm hCm, ?_, ?_⟩
  · rw [hKtake]
  · intro ch hch hbit
    rw [hk0] at hbit
    rw [hset, pack_account_eq past p (ch :: K) C hp' (by simp [hK]) hC
      (fun x hx => by
        rcases List.mem_cons.mp hx with h | h
        · rw [h]; exact hch
        · exact hKm x (List.mem_cons_of_mem _ h)) hCm,
      base32_read_cons, base32_read_cons, hK]
    have e : (digit_of ch * 32 ^ 51 + base32_read K) % 2 ^ 256
        = (digit_of k0 * 32 ^ 51 + base32_read K) % 2 ^ 256 := by
      norm_num
      omega
    rw [e]

theorem pack_account_redundant_bits_witness :
    (ascii "xrb-z" ++ List.replicate 59 0x33).length = 64
      ∧ ((ascii "xrb-z" ++ List.replicate 59 0x33).take 4 = ascii "xrb_"
          ∨ (ascii "xrb-z" ++ List.replicate 59 0x33).take 4 = ascii "xrb-")
      ∧ (∀ i, 4 ≤ i → i < 64 → cstr (ascii "xrb-z" ++ List.replicate 59 0x33) i ∈ b32)
      ∧ ∃ k c, nanoutil_pack_account_with_checksum (fun _ => 0)
            (ascii "xrb-z" ++ List.replicate 59 0x33) = .ok (k, c)
        ∧ k = be_bytes 32
            (base32_read (((ascii "xrb-z" ++ List.replicate 59 0x33).drop 4).take 52) % 2 ^ 256)
        ∧ ∀ ch ∈ b32,
            digit_of ch % 2 = digit_of (cstr (ascii "xrb-z" ++ List.replicate 59 0x33) 4) % 2 →
            nanoutil_pack_account_with_checksum (fun _ => 0)
              ((ascii "xrb-z" ++ List.replicate 59 0x33).set 4 ch) = .ok (k, c) :=
  have hal : ∀ i, i < 64 → 4 ≤ i → cstr (ascii "xrb-z" ++ List.replicate 59 0x33) i ∈ b32 := by
    decide
  ⟨by decide, Or.inr (by decide), fun i h4 h64 => hal i h64 h4,
    pack_account_redundant_bits (fun _ => 0) (ascii "xrb-z" ++ List.replicate 59 0x33)
      (by decide) (Or.inr (by decide)) (fun i h4 h64 => hal i h64 h4)⟩

/-! ## The balance renderer -/

/-- The digit loop with room for the digits of `v`: it collects a non-empty
run of decimal digits, least significant first, whose numeral is `v` and
whose most significant digit is zero only for the single digit `0`. -/
theorem tostring128_loop_spec (room : Nat) :
    ∀ (v : Nat) (collected : List Nat), 0 < room → v < 10 ^ room →
      ∃ ds, tostring128_loop 10 room v collected = some (collected ++ ds)
        ∧ ds ≠ [] ∧ ds.length ≤ room
        ∧ (∀ d ∈ ds, 0x30 ≤ d ∧ d ≤ 0x39)
        ∧ decimal_read ds.reverse = v
        ∧ (ds.reverse.head? = some 0x30 → ds = [0x30])
        ∧ (v = 0 → ds = [0x30]) := by
  induction room with
  | zero => intro v collected h; omega
  | succ n ih =>
    intro v collected _ hv
    rw [tostring128_loop]
    by_cases hq : v / 10 = 0
    · rw [if_pos hq]
      have hlt : v < 10 := by omega
      refine ⟨[0x30 + v % 10], rfl, by simp, by simp, ?_, ?_, ?_, ?_⟩
      · intro d hd
        rw [List.mem_singleton] at hd
        omega
      · simp [decimal_read]; omega
      · intro h
        simpa using h
      · intro h0; subst h0; rfl
    · rw [if_neg hq]
      have hn : 0 < n := by
        rcases Nat.eq_zero_or_pos n with h | h
        · subst h; omega
        · exact h
      have hv' : v / 10 < 10 ^ n := by
        rw [pow_succ] at hv; omega
      obtain ⟨ds, h1, h2, h3, h4, h5, h6, -⟩ := ih (v / 10) (collected ++ [0x30 + v % 10]) hn hv'
      refine ⟨(0x30 + v % 10) :: ds, ?_, by simp, by simp; omega, ?_, ?_, ?_, ?_⟩
      · rw [h1]; simp
      · intro d hd
        rcases List.mem_cons.mp hd with h | h
        · omega
        · exact h4 d h
      · have : decimal_read ((0x30 + v % 10) :: ds).reverse
            = decimal_read ds.reverse * 10 + (0x30 + v % 10 - 0x30) := by
          simp [decimal_read, List.foldl_append]
        rw [this, h5]; omega
      · intro h
        rw [List.reverse_cons, List.head?_append_of_ne_nil _ (by simpa using h2)] at h
        have := h6 h
        subst this
        simp [decimal_read] at h5
        omega
      · intro h0; omega

theorem c_bytes_of_le (after : Nat → Nat) (s : List Nat) (n : Nat) (h : n ≤ s.length) :
    c_bytes after s n = s.take n := by
  apply List.ext_getElem
  · simp [c_bytes, h]
  · intro i h1 h2
    have hi : i < n := by simpa [c_bytes] using h1
    have hs : i < s.length := by omega
    simp [c_bytes, c_read, cstr, hs, Nat.le_of_lt hs]

theorem readu128BE_lt (buffer : List Nat) : readu128BE buffer < 10 ^ 39 := by
  have : readu128BE buffer < 2 ^ 128 := Nat.mod_lt _ (by norm_num)
  norm_num at this ⊢
  omega

/-- The balance function never fails: it returns the decimal numeral of the
128-bit value it has read. -/
theorem unpack_balance_spec (after : Nat → Nat) (inp : List Nat) :
    ∃ s, nanoutil_unpack_balance_raw after inp = .ok s
      ∧ s ≠ [] ∧ s.length ≤ 39
      ∧ (∀ ch ∈ s, 0x30 ≤ ch ∧ ch ≤ 0x39)
      ∧ decimal_read s = readu128BE (c_bytes after inp 16)
      ∧ (s.head? = some 0x30 → s = [0x30])
      ∧ (readu128BE (c_bytes after inp 16) = 0 → s = [0x30]) := by
  obtain ⟨ds, h1, h2, h3, h4, h5, h6, h7⟩ :=
    tostring128_loop_spec 39 (readu128BE (c_bytes after inp 16)) [] (by decide)
      (readu128BE_lt _)
  have hnz : ∀ ch ∈ ds.reverse, ch ≠ 0 := by
    intro ch hch
    have := h4 ch (List.mem_reverse.mp hch)
    omega
  refine ⟨ds.reverse, ?_, by simpa using h2, by simpa using h3,
    fun ch hch => h4 ch (List.mem_reverse.mp hch), h5, ?_, ?_⟩
  · unfold nanoutil_unpack_balance_raw tostring128
    simp only [Nat.add_one_sub_one, h1, List.nil_append]
    rw [lua_pushstring_spec _ [] hnz]
  · intro h; rw [h6 h]; rfl
  · intro h; rw [h7 h]; rfl

/-- The memory behind the terminator is read only for an argument of fewer
than 15 bytes. -/
theorem unpack_balance_after (after after' : Nat → Nat) (inp : List Nat)
    (h : 15 ≤ inp.length) :
    nanoutil_unpack_balance_raw after inp = nanoutil_unpack_balance_raw after' inp := by
  have hb : c_bytes after inp 16 = c_bytes after' inp 16 := by
    unfold c_bytes
    apply List.map_congr_left
    intro i hi
    have : i < 16 := List.mem_range.mp hi
    unfold c_read
    rw [if_pos (by omega), if_pos (by omega)]
  unfold nanoutil_unpack_balance_raw
  rw [hb]

theorem readu128BE_eq (after : Nat → Nat) (b : List Nat) (hlen : b.length = 16)
    (hb : IsBytes b) : readu128BE (c_bytes after b 16) = be_value b := by
  have h := be_value_lt b hb
  rw [hlen] at h
  rw [c_bytes_of_le after b 16 (by omega)]
  unfold readu128BE
  rw [List.take_take, List.take_of_length_le (by omega)]
  exact Nat.mod_eq_of_lt (by norm_num at h ⊢; exact h)

/-- C11. For every 16-byte raw balance `b` the balance decoder returns a
non-empty string of the characters `'0'..'9'`, with no leading zero unless
the string is exactly `0`, whose base-10 value is the big-endian 128-bit
value of `b`; 16 zero bytes render `0`, the value 1 renders `1` and 16 bytes
of `0xFF` render `340282366920938463463374607431768211455`. -/
theorem unpack_balance_decimal (after : Nat → Nat) (b : List Nat) (hlen : b.length = 16)
    (hb : IsBytes b) :
    (∃ s, nanoutil_unpack_balance_raw after b = .ok s
      ∧ s ≠ []
      ∧ (∀ ch ∈ s, 0x30 ≤ ch ∧ ch ≤ 0x39)
      ∧ (s.head? = some 0x30 → s = ascii "0")
      ∧ decimal_read s = be_value b)
    ∧ nanoutil_unpack_balance_raw after (List.replicate 16 0) = .ok (ascii "0")
    ∧ nanoutil_unpack_balance_raw after (List.replicate 15 0 ++ [1]) = .ok (ascii "1")
    ∧ nanoutil_unpack_balance_raw after (List.replicate 16 0xFF)
        = .ok (ascii "340282366920938463463374607431768211455") := by
  refine ⟨?_, ?_, ?_, ?_⟩
  · obtain ⟨s, h1, h2, -, h4, h5, h6, -⟩ := unpack_balance_spec after b
    rw [readu128BE_eq after b hlen hb] at h5
    exact ⟨s, h1, h2, h4, h6, h5⟩
  · exact (unpack_balance_after after (fun _ => 0) _ (by decide)).trans (by decide!)
  · exact (unpack_balance_after after (fun _ => 0) _ (by decide)).trans (by decide!)
  · exact (unpack_balance_after after (fun _ => 0) _ (by decide)).trans (by decide!)

theorem unpack_balance_decimal_witness :
    (List.range 16).length = 16 ∧ IsBytes (List.range 16)
      ∧ (∃ s, nanoutil_unpack_balance_raw (fun _ => 0) (List.range 16) = .ok s
        ∧ s ≠ []
        ∧ (∀ ch ∈ s, 0x30 ≤ ch ∧ ch ≤ 0x39)
        ∧ (s.head? = some 0x30 → s = ascii "0")
        ∧ decimal_read s = be_value (List.range 16)) :=
  ⟨by decide, by decide,
    (unpack_balance_decimal (fun _ => 0) (List.range 16) (by decide) (by decide)).1⟩

/-- C12. The balance encoder fails with the error `not implemented` for every
input and never returns any bytes. -/
theorem pack_balance_unimplemented (args : List (List Nat)) :
    nanoutil_pack_balance_raw args = .error "not implemented"
      ∧ ∀ bytes, nanoutil_pack_balance_raw args ≠ .ok bytes :=
  ⟨rfl, fun _ h => Except.noConfusion h⟩

/-- C13. The encoder succeeds exactly for a key buffer of 32 bytes with a
checksum buffer of 5 bytes, and fails with an error for every other pair of
lengths: no wrong-length input is truncated or padded. -/
theorem unpack_account_length_check (k c : List Nat) :
    ((∃ s, nanoutil_unpack_account_with_checksum k c = .ok s)
        ↔ (k.length = 32 ∧ c.length = 5))
      ∧ ((∃ e, nanoutil_unpack_account_with_checksum k c = .error e)
        ↔ ¬(k.length = 32 ∧ c.length = 5)) := by
  by_cases hk : k.length = 32
  · by_cases hc : c.length = 5
    · have h := unpack_account_eq k c hk hc
      refine ⟨⟨fun _ => ⟨hk, hc⟩, fun _ => ⟨_, h⟩⟩, ⟨?_, fun hn => absurd ⟨hk, hc⟩ hn⟩⟩
      rintro ⟨e, he⟩
      rw [h] at he
      exact Except.noConfusion he
    · have h : nanoutil_unpack_account_with_checksum k c
          = .error "checksum length must be 5" := by
        unfold nanoutil_unpack_account_with_checksum
        rw [if_neg (by simp [hk]), if_pos hc]
      refine ⟨⟨?_, fun hn => absurd hn.2 hc⟩, ⟨fun _ hn => hc hn.2, fun _ => ⟨_, h⟩⟩⟩
      rintro ⟨s, hs⟩
      rw [h] at hs
      exact Except.noConfusion hs
  · have h : nanoutil_unpack_account_with_checksum k c
        = .error "account length must be 32" := by
      unfold nanoutil_unpack_account_with_checksum
      rw [if_pos hk]
    refine ⟨⟨?_, fun hn => absurd hn.1 hk⟩, ⟨fun _ hn => hk hn.1, fun _ => ⟨_, h⟩⟩⟩
    rintro ⟨s, hs⟩
    rw [h] at hs
    exact Except.noConfusion hs

theorem c_bytes_short (after : Nat → Nat) (s : List Nat) (n : Nat) (h : s.length < n) :
    c_bytes after s n
      = s ++ 0 :: (List.range (n - 1 - s.length)).map (fun i => after i % 256) := by
  apply List.ext_getElem
  · simp [c_bytes]; omega
  · intro i h1 h2
    have hi : i < n := by simpa [c_bytes] using h1
    simp only [c_bytes, List.getElem_map, List.getElem_range, c_read]
    by_cases hlt : i < s.length
    · rw [if_pos (by omega), List.getElem_append_left hlt]
      simp [cstr, hlt]
    · rw [List.getElem_append_right (by omega)]
      by_cases heq : i = s.length
      · subst heq
        rw [if_pos (Nat.le_refl _), cstr_terminator _ _ (Nat.le_refl _)]
        simp
      · rw [if_neg (by omega)]
        obtain ⟨k, rfl⟩ : ∃ k, i = s.length + (k + 1) := ⟨i - s.length - 1, by omega⟩
        have e1 : s.length + (k + 1) - s.length = k + 1 := by omega
        simp only [e1, List.getElem_cons_succ, List.getElem_map, List.getElem_range,
          Nat.add_sub_cancel]

theorem c_bytes_terminated (after : Nat → Nat) (inp : List Nat) (h15 : 15 ≤ inp.length) :
    c_bytes after inp 16 = (inp ++ [0]).take 16 := by
  by_cases h16 : 16 ≤ inp.length
  · rw [c_bytes_of_le after inp 16 h16, List.take_append_of_le_length h16]
  · have hlen : inp.length = 15 := by omega
    rw [c_bytes_short after inp 16 (by omega), hlen,
      List.take_of_length_le (by simp [hlen])]
    rfl

/-- C14 (as the code has it). The balance decoder does not look at the
length of its argument.  For every argument of 15 or more bytes it returns
what it returns for the 16-byte buffer made of the first 16 bytes of the
argument followed by its zero terminator: the decimal string, all digits and
without leading zero, of the big-endian value of that buffer.  The bytes after
the 16th are ignored, and a 15-byte argument is rendered with the terminator
as its last byte. -/
theorem unpack_balance_length (after : Nat → Nat) (inp : List Nat) (h15 : 15 ≤ inp.length)
    (hb : IsBytes inp) :
    nanoutil_unpack_balance_raw after inp
        = nanoutil_unpack_balance_raw after ((inp ++ [0]).take 16)
      ∧ ∃ s, nanoutil_unpack_balance_raw after inp = .ok s
        ∧ s ≠ []
        ∧ (∀ ch ∈ s, 0x30 ≤ ch ∧ ch ≤ 0x39)
        ∧ (s.head? = some 0x30 → s = ascii "0")
        ∧ decimal_read s = be_value ((inp ++ [0]).take 16) := by
  have hlen : ((inp ++ [0]).take 16).length = 16 := by
    rw [List.length_take, List.length_append, List.length_singleton]; omega
  have hbytes : IsBytes ((inp ++ [0]).take 16) := by
    intro x hx
    rcases List.mem_append.mp (List.mem_of_mem_take hx) with h | h
    · exact hb x h
    · rw [List.mem_singleton] at h; omega
  have hc := c_bytes_terminated after inp h15
  have hc' : c_bytes after ((inp ++ [0]).take 16) 16 = (inp ++ [0]).take 16 := by
    rw [c_bytes_of_le _ _ 16 (by omega), List.take_take, Nat.min_self]
  constructor
  · unfold nanoutil_unpack_balance_raw
    rw [hc, hc']
  · obtain ⟨s, h1, h2, -, h4, h5, h6, -⟩ := unpack_balance_spec after inp
    refine ⟨s, h1, h2, h4, h6, ?_⟩
    have hv := readu128BE_eq after _ hlen hbytes
    rw [hc'] at hv
    rw [h5, hc, hv]

theorem unpack_balance_length_witness :
    (15 ≤ (List.replicate 14 0 ++ [1]).length ∧ IsBytes (List.replicate 14 0 ++ [1])
      ∧ nanoutil_unpack_balance_raw (fun _ => 0x41) (List.replicate 14 0 ++ [1])
          = nanoutil_unpack_balance_raw (fun _ => 0x41)
              (((List.replicate 14 0 ++ [1]) ++ [0]).take 16)
      ∧ ∃ s, nanoutil_unpack_balance_raw (fun _ => 0x41) (List.replicate 14 0 ++ [1]) = .ok s
        ∧ s ≠ []
        ∧ (∀ ch ∈ s, 0x30 ≤ ch ∧ ch ≤ 0x39)
        ∧ (s.head? = some 0x30 → s = ascii "0")
        ∧ decimal_read s = be_value (((List.replicate 14 0 ++ [1]) ++ [0]).take 16))
      ∧ (15 ≤ (List.replicate 15 0 ++ [1, 7]).length ∧ IsBytes (List.replicate 15 0 ++ [1, 7])
      ∧ nanoutil_unpack_balance_raw (fun _ => 0x41) (List.replicate 15 0 ++ [1, 7])
          = nanoutil_unpack_balance_raw (fun _ => 0x41)
              (((List.replicate 15 0 ++ [1, 7]) ++ [0]).take 16)
      ∧ ∃ s, nanoutil_unpack_balance_raw (fun _ => 0x41) (List.replicate 15 0 ++ [1, 7]) = .ok s
        ∧ s ≠ []
        ∧ (∀ ch ∈ s, 0x30 ≤ ch ∧ ch ≤ 0x39)
        ∧ (s.head? = some 0x30 → s = ascii "0")
        ∧ decimal_read s = be_value (((List.replicate 15 0 ++ [1, 7]) ++ [0]).take 16)) :=
  ⟨⟨by decide, by decide,
      unpack_balance_length (fun _ => 0x41) (List.replicate 14 0 ++ [1]) (by decide)
        (by decide)⟩,
    ⟨by decide, by decide,
      unpack_balance_length (fun _ => 0x41) (List.replicate 15 0 ++ [1, 7]) (by decide)
        (by decide)⟩⟩

/-- C14 (counterexample). A 15-byte argument and a 17-byte argument are both
rendered: the first with the string terminator as its last byte, the second
without its last byte. -/
theorem unpack_balance_accepts_other_lengths :
    (List.replicate 14 0 ++ [1]).length ≠ 16
      ∧ (∀ after, nanoutil_unpack_balance_raw after (List.replicate 14 0 ++ [1])
          = .ok (ascii "256"))
      ∧ (List.replicate 15 0 ++ [1, 7]).length ≠ 16
      ∧ (∀ after, nanoutil_unpack_balance_raw after (List.replicate 15 0 ++ [1, 7])
          = .ok (ascii "1")) :=
  ⟨by decide,
    fun after => (unpack_balance_after after (fun _ => 0) _ (by decide)).trans (by decide!),
    by decide,
    fun after => (unpack_balance_after after (fun _ => 0) _ (by decide)).trans (by decide!)⟩

/-- C15. The encoder applied to the key of 32 zero bytes and the checksum of
5 zero bytes returns `xrb_` followed by 52 and 8 copies of `'1'`. -/
theorem unpack_account_zero_vector :
    nanoutil_unpack_account_with_checksum (List.replicate 32 0) (List.replicate 5 0)
      = .ok (ascii "xrb_" ++ List.replicate 52 0x31 ++ List.replicate 8 0x31) := by
  decide!

/-- C16. The prefix `xrb-` is accepted by the decoder and stands for `xrb_`:
for every 60-character body `t` the decoder returns for `xrb-` followed by `t`
exactly what it returns for `xrb_` followed by `t`, the same failure or the
same key and checksum. -/
theorem pack_account_dash_prefix (past : Nat → Nat) (t : List Nat) (_ht : t.length = 60) :
    nanoutil_pack_account_with_checksum past (ascii "xrb-" ++ t)
      = nanoutil_pack_account_with_checksum past (ascii "xrb_" ++ t) := by
  have hloop : pack_loop past (ascii "xrb-" ++ t) 60 4 clear256 0
      = pack_loop past (ascii "xrb_" ++ t) 60 4 clear256 0 := by
    apply pack_loop_congr
    intro j h4 _
    rw [cstr_append_right _ _ _ (by simpa using h4), cstr_append_right _ _ _ (by simpa using h4)]
    rfl
  have h1 : ¬(cstr (ascii "xrb-" ++ t) 0 ≠ 0x78 ∨ cstr (ascii "xrb-" ++ t) 1 ≠ 0x72
      ∨ cstr (ascii "xrb-" ++ t) 2 ≠ 0x62
      ∨ ¬(cstr (ascii "xrb-" ++ t) 3 = 0x5F ∨ cstr (ascii "xrb-" ++ t) 3 = 0x2D)) := by
    simp [cstr, ascii]
  have h2 : ¬(cstr (ascii "xrb_" ++ t) 0 ≠ 0x78 ∨ cstr (ascii "xrb_" ++ t) 1 ≠ 0x72
      ∨ cstr (ascii "xrb_" ++ t) 2 ≠ 0x62
      ∨ ¬(cstr (ascii "xrb_" ++ t) 3 = 0x5F ∨ cstr (ascii "xrb_" ++ t) 3 = 0x2D)) := by
    simp [cstr, ascii]
  unfold nanoutil_pack_account_with_checksum
  rw [if_neg h1, if_neg h2, hloop]

theorem pack_account_dash_prefix_witness :
    (List.replicate 59 0x31 ++ ascii "z").length = 60
      ∧ nanoutil_pack_account_with_checksum (fun _ => 0)
          (ascii "xrb-" ++ (List.replicate 59 0x31 ++ ascii "z"))
        = nanoutil_pack_account_with_checksum (fun _ => 0)
          (ascii "xrb_" ++ (List.replicate 59 0x31 ++ ascii "z"))
      ∧ nanoutil_pack_account_with_checksum (fun _ => 0)
          (ascii "xrb-" ++ (List.replicate 59 0x31 ++ ascii "z"))
        = .ok (List.replicate 32 0, [31, 0, 0, 0, 0]) :=
  ⟨by decide,
    pack_account_dash_prefix (fun _ => 0) (List.replicate 59 0x31 ++ ascii "z") (by decide),
    by decide!⟩

/-- C17. For every 16-byte raw balance the balance decoder does not take its
failure path `invalid balance`: rendering into the 40-byte buffer succeeds,
and the decimal string returned has between 1 and 39 characters. -/
theorem unpack_balance_never_fails (after : Nat → Nat) (b : List Nat) (_hlen : b.length = 16)
    (_hb : IsBytes b) :
    nanoutil_unpack_balance_raw after b ≠ .error "invalid balance"
      ∧ ∃ s, nanoutil_unpack_balance_raw after b = .ok s ∧ 1 ≤ s.length ∧ s.length ≤ 39 := by
  obtain ⟨s, h1, h2, h3, -⟩ := unpack_balance_spec after b
  refine ⟨?_, s, h1, ?_, h3⟩
  · rw [h1]; exact fun h => Except.noConfusion h
  · exact Nat.pos_of_ne_zero (fun h => h2 (List.length_eq_zero.mp h))

theorem unpack_balance_never_fails_witness :
    (List.replicate 16 0xFF).length = 16 ∧ IsBytes (List.replicate 16 0xFF)
      ∧ nanoutil_unpack_balance_raw (fun _ => 0) (List.replicate 16 0xFF)
          ≠ .error "invalid balance"
      ∧ ∃ s, nanoutil_unpack_balance_raw (fun _ => 0) (List.replicate 16 0xFF) = .ok s
        ∧ 1 ≤ s.length ∧ s.length ≤ 39 :=
  ⟨by decide, by decide,
    unpack_balance_never_fails (fun _ => 0) (List.replicate 16 0xFF) (by decide) (by decide)⟩

/-! ## From an address back to the same address -/

theorem le_value_le_bytes (n v : Nat) : le_value (le_bytes n v) = v % 256 ^ n := by
  induction n generalizing v with
  | zero => simp [le_bytes, le_value, Nat.mod_one]
  | succ n ih =>
    simp only [le_bytes, le_value, ih]
    rw [pow_succ', Nat.mod_mul]

theorem le_bytes_length (n v : Nat) : (le_bytes n v).length = n := by
  induction n generalizing v with
  | zero => rfl
  | succ n ih => simp [le_bytes, ih]

theorem le_bytes_isBytes (n v : Nat) : IsBytes (le_bytes n v) := by
  induction n generalizing v with
  | zero => intro b hb; simp [le_bytes] at hb
  | succ n ih =>
    intro b hb
    simp only [le_bytes, List.mem_cons] at hb
    rcases hb with h | h
    · omega
    · exact ih _ b h

theorem be_value_be_bytes (n v : Nat) : be_value (be_bytes n v) = v % 256 ^ n := by
  simp [be_value, be_bytes, le_value_le_bytes]

/-- The digits of the numeral that a run of alphabet characters denotes are
these characters. -/
theorem digits32_base32_read (cs : List Nat) (h : ∀ ch ∈ cs, ch ∈ b32) :
    (digits32 cs.length (base32_read cs)).map b32_at = cs := by
  induction cs using List.reverseRecOn with
  | nil => rfl
  | append_singleton l a ih =>
    have ha := decode32_table a (h a (by simp))
    have hl := ih (fun ch hch => h ch (List.mem_append_left _ hch))
    have hr : base32_read (l ++ [a]) = base32_read l * 32 + digit_of a := by
      simp [base32_read, List.foldl_append]
    have h1 : (base32_read l * 32 + digit_of a) / 32 = base32_read l := by omega
    have h2 : (base32_read l * 32 + digit_of a) % 32 = digit_of a := by omega
    rw [List.length_append, List.length_singleton, hr, digits32, h1, h2, List.map_append, hl,
      List.map_singleton, ha.2.2.2.2]

theorem base32_read_lt (cs : List Nat) (h : ∀ ch ∈ cs, ch ∈ b32) :
    base32_read cs < 32 ^ cs.length := by
  induction cs using List.reverseRecOn with
  | nil => simp [base32_read]
  | append_singleton l a ih =>
    have ha := decode32_table a (h a (by simp))
    have hl := ih (fun ch hch => h ch (List.mem_append_left _ hch))
    have hr : base32_read (l ++ [a]) = base32_read l * 32 + digit_of a := by
      simp [base32_read, List.foldl_append]
    rw [hr, List.length_append, List.length_singleton, pow_succ]
    omega

/-- A 64-character string with alphabet characters at the positions 4..63,
cut into its prefix, its first key character, the other 51 and the last 8. -/
theorem address_shape (s : List Nat) (hlen : s.length = 64)
    (hal : ∀ i, 4 ≤ i → i < 64 → cstr s i ∈ b32) :
    ∃ p k0 K C, s = p ++ (k0 :: K) ++ C ∧ s.take 4 = p ∧ cstr s 4 = k0
      ∧ K.length = 51 ∧ C.length = 8
      ∧ (∀ ch ∈ k0 :: K, ch ∈ b32) ∧ (∀ ch ∈ C, ch ∈ b32) := by
  obtain ⟨p, k0, K, C, rfl, hpl, hK, hC⟩ := address_split s hlen
  have hmem : ∀ ch ∈ (k0 :: K) ++ C, ch ∈ b32 := by
    intro ch hch
    obtain ⟨n, hn, rfl⟩ := cstr_of_mem _ ch hch
    have hn' : n < 60 := by
      simp only [List.length_append, List.length_cons, hK, hC] at hn; omega
    have := hal (4 + n) (by omega) (by omega)
    rw [List.append_assoc, cstr_append_right _ _ _ (by omega), hpl] at this
    simpa using this
  refine ⟨p, k0, K, C, rfl, ?_, ?_, hK, hC, fun ch h => hmem ch (List.mem_append_left _ h),
    fun ch h => hmem ch (List.mem_append_right _ h)⟩
  · rw [List.append_assoc, List.take_left' hpl]
  · rw [List.append_assoc, cstr_append_right _ _ _ (by omega), hpl]; rfl

/-- C18. Inverse round trip on canonical addresses: for every 64-character
string `s` that starts with `xrb_`, has alphabet characters at all the
positions 4..63 and `'1'` or `'3'` at position 4, the decoder succeeds with
some `(k, c)`, and the encoder applied to `(k, c)` returns exactly `s`. -/
theorem pack_unpack_round_trip (past : Nat → Nat) (s : List Nat) (hlen : s.length = 64)
    (hp : s.take 4 = ascii "xrb_") (hal : ∀ i, 4 ≤ i → i < 64 → cstr s i ∈ b32)
    (h4 : cstr s 4 = 0x31 ∨ cstr s 4 = 0x33) :
    ∃ k c, nanoutil_pack_account_with_checksum past s = .ok (k, c)
      ∧ nanoutil_unpack_account_with_checksum k c = .ok s := by
  obtain ⟨p, k0, K, C, rfl, hp', hk0, hK, hC, hKm, hCm⟩ := address_shape s hlen hal
  rw [hp] at hp'
  subst hp'
  rw [hk0] at h4
  have hK52 : (k0 :: K).length = 52 := by simp [hK]
  refine ⟨_, _, pack_account_eq past _ (k0 :: K) C (Or.inl rfl) hK52 hC hKm hCm, ?_⟩
  have hd : digit_of k0 = 0 ∨ digit_of k0 = 1 := by
    rcases h4 with h | h <;> subst h
    · left; decide
    · right; decide
  have hKlt := base32_read_lt K (fun ch h => hKm ch (List.mem_cons_of_mem _ h))
  have hClt := base32_read_lt C hCm
  rw [hK] at hKlt
  rw [hC] at hClt
  have hV : base32_read (k0 :: K) % 2 ^ 256 = base32_read (k0 :: K) := by
    rw [base32_read_cons, hK]
    apply Nat.mod_eq_of_lt
    norm_num at hKlt ⊢
    omega
  have hW : base32_read C % 2 ^ 64 = base32_read C := by
    apply Nat.mod_eq_of_lt
    norm_num at hClt ⊢
    omega
  rw [hV, hW]
  have hkl : (be_bytes 32 (base32_read (k0 :: K))).length = 32 := by
    simp [be_bytes, le_bytes_length]
  have hcl : (le_bytes 5 (base32_read C)).length = 5 := le_bytes_length _ _
  rw [unpack_account_eq _ _ hkl hcl]
  have e1 : readu256BE (be_bytes 32 (base32_read (k0 :: K))) = base32_read (k0 :: K) := by
    unfold readu256BE
    rw [List.take_of_length_le (by omega), be_value_be_bytes]
    have := hV
    norm_num at this ⊢
    omega
  have e2 : le_value ((le_bytes 5 (base32_read C)).take 5) % 2 ^ 64 = base32_read C := by
    rw [List.take_of_length_le (by omega), le_value_le_bytes]
    norm_num at hClt ⊢
    omega
  have d1 := digits32_base32_read (k0 :: K) hKm
  have d2 := digits32_base32_read C hCm
  rw [hK52] at d1
  rw [hC] at d2
  rw [e1, e2, d1, d2]

theorem pack_unpack_round_trip_witness :
    (ascii "xrb_3" ++ List.replicate 58 0x7A ++ ascii "9").length = 64
      ∧ (ascii "xrb_3" ++ List.replicate 58 0x7A ++ ascii "9").take 4 = ascii "xrb_"
      ∧ (∀ i, 4 ≤ i → i < 64 →
          cstr (ascii "xrb_3" ++ List.replicate 58 0x7A ++ ascii "9") i ∈ b32)
      ∧ (cstr (ascii "xrb_3" ++ List.replicate 58 0x7A ++ ascii "9") 4 = 0x31
          ∨ cstr (ascii "xrb_3" ++ List.replicate 58 0x7A ++ ascii "9") 4 = 0x33)
      ∧ ∃ k c, nanoutil_pack_account_with_checksum (fun _ => 0)
            (ascii "xrb_3" ++ List.replicate 58 0x7A ++ ascii "9") = .ok (k, c)
        ∧ nanoutil_unpack_account_with_checksum k c
            = .ok (ascii "xrb_3" ++ List.replicate 58 0x7A ++ ascii "9") :=
  have hal : ∀ i, i < 64 → 4 ≤ i →
      cstr (ascii "xrb_3" ++ List.replicate 58 0x7A ++ ascii "9") i ∈ b32 := by decide
  ⟨by decide, by decide, fun i h4 h64 => hal i h64 h4, Or.inr (by decide),
    pack_unpack_round_trip (fun _ => 0) (ascii "xrb_3" ++ List.replicate 58 0x7A ++ ascii "9")
      (by decide) (by decide) (fun i h4 h64 => hal i h64 h4) (Or.inr (by decide))⟩

/-! ## The lookup in `decode32` -/

/-- C19 (the code at the failing input). The byte `0x7C` passes the range
check of the decoder, its index 75 is not one of the 75 entries of `decode32`,
and the lookup returns the terminator of the string literal; the byte `0x7F`
passes the range check too and its index 78 lies behind the 76 bytes of the
array. -/
theorem decode32_lookup_leaves_table :
    ¬((0x7C : Nat) < 0x31 ∨ (0x7C : Nat) ≥ 0x80)
      ∧ ¬((0x7C : Nat) - 0x31 < 75)
      ∧ (∀ past, decode32_at past (0x7C - 0x31) = 0)
      ∧ ¬((0x7F : Nat) < 0x31 ∨ (0x7F : Nat) ≥ 0x80)
      ∧ ¬((0x7F : Nat) - 0x31 < decode32.length)
      ∧ (∀ past, decode32_at past (0x7F - 0x31) = past 2 % 256) :=
  ⟨by decide, by decide, fun _ => rfl, by decide, by decide, fun _ => rfl⟩

/-! ## The hex helpers -/

theorem hex_byte_table :
    ∀ b, b < 256 → ∀ char_signed : Bool,
      hex_str.getD ((b >>> 4) &&& 0x0F) 0 ∈ hex_str
        ∧ hex_str.getD (b &&& 0x0F) 0 ∈ hex_str
        ∧ hex_str.getD ((b >>> 4) &&& 0x0F) 0 ≠ 0
        ∧ hex_str.getD (b &&& 0x0F) 0 ≠ 0
        ∧ from_hex_byte char_signed (hex_str.getD ((b >>> 4) &&& 0x0F) 0)
            (hex_str.getD (b &&& 0x0F) 0) = b := by
  decide!

theorem hex_at_ne_zero (x : Nat) : hex_at (x &&& 0x0F) ≠ 0 := by
  have h : ∀ d, d < 16 → hex_at d ≠ 0 := by decide
  have e : x &&& 0x0F = x % 16 := Nat.and_pow_two_sub_one_eq_mod x 4
  rw [e]
  exact h _ (Nat.mod_lt _ (by decide))

theorem bin_to_strhex_step_length (bin : List Nat) (i : Nat) (out : List Nat) :
    (bin_to_strhex_step bin i out).length = out.length := by
  simp [bin_to_strhex_step]

theorem bin_to_strhex_loop_length (bin : List Nat) (n : Nat) :
    ∀ i out, (bin_to_strhex_loop bin n i out).length = out.length := by
  induction n with
  | zero => intro i out; rfl
  | succ n ih =>
    intro i out
    rw [bin_to_strhex_loop, ih, bin_to_strhex_step_length]

/-- While the 32-bit index does not wrap, the last iteration of the loop is
the one at index `i + n`. -/
theorem bin_to_strhex_loop_last (bin : List Nat) (n : Nat) :
    ∀ i out, i + n < 2 ^ 32 →
      bin_to_strhex_loop bin (n + 1) i out
        = bin_to_strhex_step bin (i + n) (bin_to_strhex_loop bin n i out) := by
  induction n with
  | zero => intro i out _; rfl
  | succ n ih =>
    intro i out h
    have hi : (i + 1) % 2 ^ 32 = i + 1 := Nat.mod_eq_of_lt (by omega)
    have e : i + (n + 1) = i + 1 + n := by omega
    rw [bin_to_strhex_loop, hi, ih (i + 1) _ (by omega), e]
    conv_rhs => rw [bin_to_strhex_loop, hi]

/-- At `2 ^ 31 + 1` bytes the index `i * 2` of the last iteration wraps to 0:
the string returned starts with the two hex characters of the last byte. -/
theorem to_hex_wrapped (fresh : Nat → Nat) (bin : List Nat) (hlen : bin.length = 2 ^ 31 + 1) :
    ∃ tail, nanoutil_to_hex fresh bin
      = some (.ok (hex_at ((bin.getD (2 ^ 31) 0 >>> 4) &&& 0x0F)
          :: hex_at (bin.getD (2 ^ 31) 0 &&& 0x0F) :: tail)) := by
  have main : ∀ out0 : List Nat, out0.length = (2 ^ 31 + 1) * 2 + 1 →
      ∃ tail, lua_pushstring ((bin_to_strhex_loop bin (2 ^ 31 + 1) 0 out0).set
          ((2 ^ 31 + 1) * 2) 0)
        = hex_at ((bin.getD (2 ^ 31) 0 >>> 4) &&& 0x0F)
          :: hex_at (bin.getD (2 ^ 31) 0 &&& 0x0F) :: tail := by
    intro out0 hl0
    have hX := bin_to_strhex_loop_length bin (2 ^ 31) 0 out0
    rw [hl0] at hX
    rw [bin_to_strhex_loop_last bin (2 ^ 31) 0 out0 (by norm_num), Nat.zero_add]
    generalize bin_to_strhex_loop bin (2 ^ 31) 0 out0 = X at hX
    rcases X with _ | ⟨a, _ | ⟨b, rest⟩⟩
    · norm_num at hX
    · norm_num at hX
    · have e0 : (2 ^ 31 * 2 + 0) % 2 ^ 32 = 0 := by norm_num
      have e1 : (2 ^ 31 * 2 + 1) % 2 ^ 32 = 1 := by norm_num
      have e2 : (2 ^ 31 + 1) * 2 = 2 ^ 32 + 1 + 1 := by norm_num
      have hstep : bin_to_strhex_step bin (2 ^ 31) (a :: b :: rest)
          = hex_at ((bin.getD (2 ^ 31) 0 >>> 4) &&& 0x0F)
            :: hex_at (bin.getD (2 ^ 31) 0 &&& 0x0F) :: rest := by
        unfold bin_to_strhex_step
        rw [e0, e1]
        rfl
      refine ⟨lua_pushstring (rest.set (2 ^ 32) 0), ?_⟩
      rw [hstep, e2, List.set_cons_succ, List.set_cons_succ]
      unfold lua_pushstring
      rw [List.takeWhile_cons_of_pos (by simpa using hex_at_ne_zero _),
        List.takeWhile_cons_of_pos (by simpa using hex_at_ne_zero _)]
  obtain ⟨tail, ht⟩ := main ((List.range (bin.length * 2 + 1)).map fresh)
    (by rw [List.length_map, List.length_range, hlen])
  refine ⟨tail, ?_⟩
  unfold nanoutil_to_hex bin_to_strhex
  rw [if_neg (by rw [hlen]; norm_num)]
  simp only []
  rw [← ht, hlen]

/-- C20 (the code at the failing input). For the byte string of `2 ^ 31`
zero bytes followed by the byte `0xFF` the 32-bit index `i * 2` of
`bin_to_strhex` wraps to 0 in the last iteration: `bytes_to_hex` returns a
string that starts with `ff`, the characters of the last byte, where the hex
string of the input starts with `00`, and `hex_to_bytes` does not turn it back
into the input. -/
theorem to_hex_index_wraps :
    ∀ fresh, ∃ hex,
      nanoutil_to_hex fresh (List.replicate (2 ^ 31) 0 ++ [0xFF]) = some (.ok hex)
        ∧ hex.take 2 = ascii "ff"
        ∧ ∀ char_signed,
            nanoutil_from_hex char_signed hex ≠ .ok (List.replicate (2 ^ 31) 0 ++ [0xFF]) := by
  intro fresh
  have hlen : (List.replicate (2 ^ 31) 0 ++ [0xFF]).length = 2 ^ 31 + 1 := by
    rw [List.length_append, List.length_replicate, List.length_singleton]
  have hget : (List.replicate (2 ^ 31) 0 ++ [0xFF]).getD (2 ^ 31) 0 = 0xFF := by
    rw [List.getD_append_right _ _ _ _ (by rw [List.length_replicate]),
      List.length_replicate, Nat.sub_self, List.getD_cons_zero]
  have hfirst : (List.replicate (2 ^ 31) 0 ++ [0xFF]).getD 0 7 = 0 := by
    have h0 : 0 < (List.replicate (2 ^ 31) 0).length := by
      rw [List.length_replicate]; norm_num
    rw [List.getD_append _ _ _ _ h0, List.getD_eq_getElem _ _ h0, List.getElem_replicate]
  have hf : hex_at ((0xFF >>> 4) &&& 0x0F) = 0x66 ∧ hex_at (0xFF &&& 0x0F) = 0x66 := by
    decide
  have hbyte : ∀ char_signed, from_hex_byte char_signed 0x66 0x66 = 255 := by decide
  obtain ⟨tail, ht⟩ := to_hex_wrapped fresh _ hlen
  rw [hget, hf.1, hf.2] at ht
  refine ⟨_, ht, rfl, ?_⟩
  intro char_signed h
  unfold nanoutil_from_hex at h
  split at h
  · exact Except.noConfusion h
  · have h' := Except.ok.inj h
    rw [from_hex_loop, hbyte] at h'
    have h0 := congrArg (fun l => List.getD l 0 7) h'
    simp only [List.getD_cons_zero] at h0
    rw [hfirst] at h0
    exact absurd h0 (by decide)

theorem hex_chars_spec (char_signed : Bool) (bin : List Nat) (hb : IsBytes bin) :
    (hex_chars bin).length = 2 * bin.length
      ∧ (∀ ch ∈ hex_chars bin, ch ∈ hex_str)
      ∧ (∀ ch ∈ hex_chars bin, ch ≠ 0)
      ∧ from_hex_loop char_signed (hex_chars bin) = bin := by
  induction bin with
  | nil => exact ⟨rfl, by simp [hex_chars], by simp [hex_chars], rfl⟩
  | cons b bin ih =>
    obtain ⟨h2, h3, h4, h5⟩ := ih (fun x hx => hb x (List.mem_cons_of_mem _ hx))
    obtain ⟨t1, t2, t3, t4, t5⟩ := hex_byte_table b (hb b (List.mem_cons_self _ _)) char_signed
    refine ⟨?_, ?_, ?_, ?_⟩
    · simp only [hex_chars, List.length_cons, h2]; omega
    · intro ch hch
      rcases List.mem_cons.mp hch with h | h
      · rw [h]; exact t1
      · rcases List.mem_cons.mp h with h | h
        · rw [h]; exact t2
        · exact h3 ch h
    · intro ch hch
      rcases List.mem_cons.mp hch with h | h
      · rw [h]; exact t3
      · rcases List.mem_cons.mp h with h | h
        · rw [h]; exact t4
        · exact h4 ch h
    · rw [hex_chars, from_hex_loop]
      unfold hex_at
      rw [t5, h5]

/-- While `i * 2 + 1` stays below `2 ^ 32` the loop fills the cells `mid`
with the hex characters of the bytes from index `i` on. -/
theorem bin_to_strhex_loop_spec (bin : List Nat) (bs : List Nat) :
    ∀ (i : Nat) (pre mid post rest : List Nat), bin.drop i = bs ++ rest →
      pre.length = 2 * i → mid.length = 2 * bs.length → i + bs.length ≤ 2 ^ 31 →
      bin_to_strhex_loop bin bs.length i (pre ++ mid ++ post)
        = pre ++ hex_chars bs ++ post := by
  induction bs with
  | nil =>
    intro i pre mid post rest _ _ hmid _
    have : mid = [] := List.length_eq_zero.mp (by simpa using hmid)
    subst this
    rfl
  | cons b bs ih =>
    intro i pre mid post rest hdrop hpre hmid hi
    obtain ⟨hb, hrest⟩ := cstr_of_drop bin i b (bs ++ rest) hdrop
    unfold cstr at hb
    simp only [List.length_cons] at hmid hi
    rcases mid with _ | ⟨m1, _ | ⟨m2, mid⟩⟩
    · simp at hmid
    · simp at hmid; omega
    · have hmid' : mid.length = 2 * bs.length := by
        simp only [List.length_cons] at hmid; omega
      have e0 : (i * 2 + 0) % 2 ^ 32 = pre.length := by
        rw [hpre]; exact Nat.mod_eq_of_lt (by omega) |>.trans (by omega)
      have e1 : (i * 2 + 1) % 2 ^ 32 = pre.length + 1 := by
        rw [hpre]; exact Nat.mod_eq_of_lt (by omega) |>.trans (by omega)
      have e2 : (i + 1) % 2 ^ 32 = i + 1 := Nat.mod_eq_of_lt (by omega)
      have hstep : bin_to_strhex_step bin i (pre ++ (m1 :: m2 :: mid) ++ post)
          = (pre ++ [hex_at ((b >>> 4) &&& 0x0F), hex_at (b &&& 0x0F)]) ++ mid ++ post := by
        unfold bin_to_strhex_step
        rw [e0, e1, hb, List.append_assoc, List.set_append_right _ _ (Nat.le_refl _),
          List.set_append_right _ _ (by omega)]
        simp
      rw [List.length_cons, bin_to_strhex_loop, hstep, e2,
        ih (i + 1) _ mid post rest hrest (by simp; omega) hmid' (by omega)]
      simp [hex_chars]

/-- Below the wrap of the index, for at most `2 ^ 31` bytes, `bytes_to_hex`
returns the `2 * |b|` hex characters of `b` and `hex_to_bytes` returns
`b`. -/
theorem to_hex_from_hex_below_wrap (fresh : Nat → Nat) (char_signed : Bool) (b : List Nat)
    (hb : IsBytes b) (hlen : b.length ≤ 2 ^ 31) :
    ∃ hex, nanoutil_to_hex fresh b = some (.ok hex)
      ∧ hex.length = 2 * b.length
      ∧ (∀ ch ∈ hex, ch ∈ ascii "0123456789abcdef")
      ∧ nanoutil_from_hex char_signed hex = .ok b := by
  obtain ⟨h2, h3, h4, h5⟩ := hex_chars_spec char_signed b hb
  have hout : ∃ mid x, (List.range (b.length * 2 + 1)).map fresh = [] ++ mid ++ [x]
      ∧ mid.length = 2 * b.length := by
    rcases List.eq_nil_or_concat ((List.range (b.length * 2 + 1)).map fresh) with h | ⟨mid, x, h⟩
    · have := congrArg List.length h
      simp at this
    · refine ⟨mid, x, by rw [h]; simp, ?_⟩
      have := congrArg List.length h
      simp at this
      omega
  obtain ⟨mid, x, ho, hmid⟩ := hout
  have hloop := bin_to_strhex_loop_spec b b 0 [] mid [x] [] (by simp) rfl hmid (by omega)
  refine ⟨hex_chars b, ?_, h2, h3, ?_⟩
  · unfold nanoutil_to_hex bin_to_strhex
    rw [if_neg (by omega), ho, hloop]
    simp only [List.nil_append]
    rw [List.set_append_right _ _ (by omega), h2, Nat.mul_comm, Nat.sub_self, List.set_cons_zero,
      lua_pushstring_spec _ [] h4]
  · unfold nanoutil_from_hex
    rw [if_neg (by omega), h5]

end Prailude
